import Mathlib

/-!
Shallow embedding of the reconciliation / queue-advancement core of the
dynamicspackmanager server (planning-board variant, `src/unnamed/part_001`),
together with proofs settling the frozen claims about it.

Modelling conventions:
* JS numbers produced by `parseFloat` are modelled as `Option ℚ`
  (`none` = field absent or non-numeric, i.e. `parseFloat` returned `NaN`);
  `parseFloat(x) || 0` is `numOr0`, `parseFloat(x) || 1` is `cajasOr1`.
* JS division is exact rational division; it is implemented here by
  `jsDiv` via `Rat.divInt` (kernel-reducible) and proved equal to `(/ : ℚ → ℚ → ℚ)`.
* SQL tables are lists of rows in physical order; `SELECT ... LIMIT 1`
  without `ORDER BY` is refined to the first matching row.
* A JS object built by `rows.reduce((acc,r)=>{acc[k]=v})` and read back with
  `Object.entries` is modelled by `objFold`: string (non-index) keys keep
  first-insertion order and the last written value wins.
* The JS string key `` `${orderId}-${standardId}` `` is injective on
  (numeric id, product code) pairs since the id contains no dash, so the
  being-packed set is modelled as a list of `(Nat × String)` pairs.
-/

namespace DPM

/-- The derived packing status of one order line (`getPackingStatus`). -/
inductive PackingStatus where
  | pending
  | partially
  | being_packed
  | done
  | shipped
deriving DecidableEq

/-- One order of the external feed, with the fields the core consumes.
Quantity fields are `none` when absent or non-numeric. -/
structure ApiOrder where
  id_marketer_order : Nat
  codigo_producto : String
  cantidad_solicitada : Option ℚ
  cantidad_asignada : Option ℚ
  cantidad_despachada : Option ℚ
  cajas_por_pallet : Option ℚ
  estado_marketer_order : String
deriving DecidableEq

/-- Models `parseFloat(x) || 0`. -/
def numOr0 (v : Option ℚ) : ℚ := v.getD 0

/-- Models `parseFloat(order.cajas_por_pallet) || 1`: absent, non-numeric and
zero all collapse to 1. -/
def cajasOr1 : Option ℚ → ℚ
  | none => 1
  | some c => if c = 0 then 1 else c

/-- Exact rational division, implemented through `Rat.divInt` so that it
evaluates by kernel reduction; `jsDiv_eq_div` shows it is ordinary division. -/
def jsDiv (a b : ℚ) : ℚ := Rat.divInt (a.num * (b.den : Int)) ((a.den : Int) * b.num)

/-- The completion classifier `getPackingStatus(order, state)`, with the
being-packed membership test abstracted into the boolean argument. -/
def getPackingStatus (o : ApiOrder) (beingPacked : Bool) : PackingStatus :=
  if 0 < numOr0 o.cantidad_despachada then .shipped
  else
    let req := numOr0 o.cantidad_solicitada
    if 0 < req ∧
        jsDiv req (cajasOr1 o.cajas_por_pallet) ≤
          jsDiv (numOr0 o.cantidad_asignada) (cajasOr1 o.cajas_por_pallet) then .done
    else if beingPacked then .being_packed
    else if 0 < numOr0 o.cantidad_asignada then .partially
    else .pending

/-- One row of the `outfeed_queue` table. -/
structure QEntry where
  outfeed_id : Nat
  tag : String
  order_id : Nat
  standard_id : String
  sequence : Int
deriving DecidableEq

/-- The persisted collections the core reads and writes. -/
structure RState where
  loads : List (Nat × String)
  priorities : List (String × Int)
  queue : List QEntry
  statuses : List (Nat × String)
  lineAssignments : List (Nat × String × String)
deriving DecidableEq

/-- Models `dbOutfeedStatus.rows.find(s => s.outfeed_id === f)?.status`. -/
def statusOf (statuses : List (Nat × String)) (f : Nat) : Option String :=
  (statuses.find? (fun p => p.1 == f)).map Prod.snd

/-- The `isBeingPackedSet`: keys of sequence-1 queue entries whose outfeed is
RUNNING (built before any queue mutation of the reconciliation pass). -/
def isBeingPackedKeys (queue : List QEntry) (statuses : List (Nat × String)) :
    List (Nat × String) :=
  (queue.filter (fun e => e.sequence == 1 &&
      (statusOf statuses e.outfeed_id == some "RUNNING"))).map
    (fun e => (e.order_id, e.standard_id))

/-- Each feed order paired with its packing status, as `ordersWithStatus`. -/
def ordersWithStatus (orders : List ApiOrder) (queue : List QEntry)
    (statuses : List (Nat × String)) : List (ApiOrder × PackingStatus) :=
  let keys := isBeingPackedKeys queue statuses
  orders.map (fun o =>
    (o, getPackingStatus o (keys.contains (o.id_marketer_order, o.codigo_producto))))

/-- The classifier rules exactly as the specification words them: an ordered
list of guard/status pairs, evaluated first match wins, default `pending`. -/
def specRules (o : ApiOrder) (beingPacked : Bool) : List (Bool × PackingStatus) :=
  [ (decide (0 < numOr0 o.cantidad_despachada), .shipped),
    (decide (0 < numOr0 o.cantidad_solicitada) &&
      decide (jsDiv (numOr0 o.cantidad_solicitada) (cajasOr1 o.cajas_por_pallet) ≤
        jsDiv (numOr0 o.cantidad_asignada) (cajasOr1 o.cajas_por_pallet)), .done),
    (beingPacked, .being_packed),
    (decide (0 < numOr0 o.cantidad_asignada), .partially) ]

/-- First matching rule wins; no rule matches gives `pending`. -/
def firstMatch : List (Bool × PackingStatus) → PackingStatus
  | [] => .pending
  | (c, s) :: rest => if c then s else firstMatch rest

/-- The specification-side classifier (spec section 4.2). -/
def specClassify (o : ApiOrder) (beingPacked : Bool) : PackingStatus :=
  firstMatch (specRules o beingPacked)

/-- Models building a JS object by iterated `acc[key] = val` and reading it
back with `Object.entries`: string (non-index) keys keep first-insertion
order and the last written value wins. -/
def objFold {κ β : Type} [BEq κ] (rows : List (κ × β)) : List (κ × β) :=
  rows.foldl (fun acc kv =>
    if acc.any (fun p => p.1 == kv.1) then
      acc.map (fun p => if p.1 == kv.1 then (p.1, kv.2) else p)
    else acc ++ [kv]) []

/-- Models the key list of a JS Map or Set built by repeated insertion:
distinct values in first-insertion order. -/
def setList {α : Type} [BEq α] (l : List α) : List α :=
  l.foldl (fun acc x => if acc.contains x then acc else acc ++ [x]) []

/-- Stable insertion of one element: x goes before the first y with x le y,
so an earlier element precedes the later equal ones. -/
def insertBy {α : Type} (le : α → α → Bool) (x : α) : List α → List α
  | [] => [x]
  | y :: ys => if le x y then x :: y :: ys else y :: insertBy le x ys

/-- Stable ascending sort, the model of a stable `Array.prototype.sort`
comparator run and of `ORDER BY` reads (any tie order is a valid read; the
stable one is chosen). -/
def sortBy {α : Type} (le : α → α → Bool) : List α → List α
  | [] => []
  | a :: rest => insertBy le a (sortBy le rest)

/-- The renumbering loop `UPDATE outfeed_queue SET sequence = i + 1` over a
row list already in its intended order. -/
def renumberSeq (l : List QEntry) : List QEntry :=
  l.enum.map (fun p => { p.2 with sequence := (p.1 : Int) + 1 })

/-- Resequencing of one outfeed: read its rows ordered by `sequence`
(ORDER BY sequence, stable) and rewrite their sequences to 1..N
(UPDATE ... SET sequence = i+1 row by row). The rewritten rows are listed
after the untouched rows of the other outfeeds. -/
def resequenceOutfeed (q : List QEntry) (f : Nat) : List QEntry :=
  q.filter (fun e => e.outfeed_id != f) ++
    renumberSeq (sortBy (fun a b => decide (a.sequence ≤ b.sequence))
      (q.filter (fun e => e.outfeed_id == f)))

/-- POST /api/unplan-order: delete the tag (from one outfeed when given —
outfeed ids in the catalog are positive, so JS truthiness of the id is not
modelled — else from all), then resequence the outfeeds the subsequent
SELECT reports as still containing the tag. -/
def unplanOrder (s : RState) (tag : String) (outfeedId : Option Nat) :
    Except String RState :=
  if tag == "" then .error "Falta el tag a desplanificar."
  else
    let q1 := match outfeedId with
      | some f => s.queue.filter (fun e => !(e.tag == tag && e.outfeed_id == f))
      | none => s.queue.filter (fun e => !(e.tag == tag))
    let affected := setList ((q1.filter (fun e => e.tag == tag)).map (fun e => e.outfeed_id))
    .ok { s with queue := affected.foldl resequenceOutfeed q1 }

/-- Lexicographic code-unit comparison (byte-wise SQL collation): true when
the first list sorts strictly before the second. -/
def lexLt : List Char → List Char → Bool
  | [], [] => false
  | [], _ :: _ => true
  | _ :: _, [] => false
  | a :: as, b :: bs =>
    if a.toNat < b.toNat then true
    else if b.toNat < a.toNat then false
    else lexLt as bs

/-- Models `ORDER BY tag DESC LIMIT 1`: the lexicographically greatest tag. -/
def lexMax? (l : List String) : Option String :=
  l.foldl (fun acc t =>
    match acc with
    | none => some t
    | some m => if lexLt m.data t.data then some t else some m) none

/-- Models the SQL pattern match `tag LIKE loadName || '%'`. -/
def strHasPre (p s : String) : Bool := s.data.take p.data.length == p.data

/-- Decimal digit test. -/
def isDigitCh (c : Char) : Bool := 48 ≤ c.toNat && c.toNat ≤ 57

/-- Numeric value of a run of decimal digits. -/
def digitsToNat (l : List Char) : Nat := l.foldl (fun a c => a * 10 + (c.toNat - 48)) 0

/-- Models `parseInt(s, 10)`: skip blanks, optional sign, longest leading run
of decimal digits; `none` models `NaN`. -/
def jsParseInt (s : String) : Option Int :=
  let l := s.data.dropWhile (fun c => c == ' ')
  match l with
  | '-' :: rest =>
    if (rest.takeWhile isDigitCh).isEmpty then none
    else some (-(digitsToNat (rest.takeWhile isDigitCh) : Int))
  | '+' :: rest =>
    if (rest.takeWhile isDigitCh).isEmpty then none
    else some ((digitsToNat (rest.takeWhile isDigitCh) : Int))
  | _ =>
    if (l.takeWhile isDigitCh).isEmpty then none
    else some ((digitsToNat (l.takeWhile isDigitCh) : Int))

/-- Models `String(n).padStart(3, '0')`. -/
def padStart3 (s : String) : String := ⟨List.replicate (3 - s.data.length) '0' ++ s.data⟩

/-- Models `lastTag.replace(loadName, '')` for a tag matched by
`LIKE loadName || '%'`: the first occurrence of the load name in such a
tag is its occurrence at index 0, so the replacement drops exactly the first
loadName.length characters. -/
def dropLoadName (loadName tag : String) : String := ⟨tag.data.drop loadName.data.length⟩

/-- Tag generation for a line that has no tag yet: take the lexicographically
last queued tag beginning with the load name, parse its remainder as an
integer, and emit the load name followed by the padded successor (1 when no
such tag exists or its remainder does not parse). -/
def generatedTag (queue : List QEntry) (loadName : String) : String :=
  let n : Int :=
    match lexMax? ((queue.map (fun e => e.tag)).filter (fun t => strHasPre loadName t)) with
    | none => 1
    | some last =>
      match jsParseInt (dropLoadName loadName last) with
      | none => 1
      | some k => k + 1
  loadName ++ padStart3 (toString n)

/-- The tag `planOrder` uses: an existing tag of the same line anywhere in any
queue (`SELECT tag ... LIMIT 1`), else a newly generated one. -/
def resolvedTag (queue : List QEntry) (loadName : String) (orderId : Nat)
    (standardId : String) : String :=
  match queue.find? (fun e => e.order_id == orderId && e.standard_id == standardId) with
  | some e => e.tag
  | none => generatedTag queue loadName

/-- Whether the outfeed already holds a row for the line — the
`ON CONFLICT (outfeed_id, order_id, standard_id)` uniqueness key. -/
def lineConflict (q : List QEntry) (f : Nat) (orderId : Nat) (standardId : String) : Bool :=
  q.any (fun e => e.outfeed_id == f && e.order_id == orderId && e.standard_id == standardId)

/-- The queue mutation `planOrder` performs for one target outfeed: on high
priority shift the whole outfeed down and insert at sequence 1 unless the
line is already queued there; otherwise append at max sequence + 1 unless the
line is already queued there. -/
def planInsertOne (orderId : Nat) (standardId : String) (newTag : String)
    (isHighPriority : Bool) (q : List QEntry) (f : Nat) : List QEntry :=
  if isHighPriority then
    let shifted := q.map (fun e =>
      if e.outfeed_id == f then { e with sequence := e.sequence + 1 } else e)
    if lineConflict shifted f orderId standardId then shifted
    else shifted ++ [⟨f, newTag, orderId, standardId, 1⟩]
  else
    let maxSeq := (((q.filter (fun e => e.outfeed_id == f)).map (fun e => e.sequence)).max?).getD 0
    if lineConflict q f orderId standardId then q
    else q ++ [⟨f, newTag, orderId, standardId, maxSeq + 1⟩]

/-- POST /api/plan-order (the falsy-field validation, the load lookup, tag
resolution and the per-outfeed insertions). -/
def planOrder (s : RState) (orderId : Nat) (standardId : String)
    (outfeedIds : List Nat) (isHighPriority : Bool) : Except String (RState × String) :=
  if orderId == 0 || standardId == "" || outfeedIds.isEmpty then
    .error "Faltan datos para planificar la orden."
  else
    match s.loads.find? (fun p => p.1 == orderId) with
    | none => .error "La orden no tiene un Load asignado."
    | some lp =>
      let newTag := resolvedTag s.queue lp.2 orderId standardId
      let q1 := outfeedIds.foldl (planInsertOne orderId standardId newTag isHighPriority) s.queue
      .ok ({ s with queue := q1 }, newTag)

/-- The sequence-1 rows of the queue whose order exists in the snapshot with
classified status done or shipped: their tags are retired. -/
def retiredRows (ows : List (ApiOrder × PackingStatus)) (queue : List QEntry) :
    List QEntry :=
  queue.filter (fun e => e.sequence == 1 &&
    (match ows.find? (fun p =>
        p.1.id_marketer_order == e.order_id && p.1.codigo_producto == e.standard_id) with
     | some p => p.2 == PackingStatus.done || p.2 == PackingStatus.shipped
     | none => false))

/-- `doneTagsToDelete` of the reconciliation pass. -/
def doneTagsToDelete (ows : List (ApiOrder × PackingStatus)) (queue : List QEntry) :
    List String :=
  (retiredRows ows queue).map (fun e => e.tag)

/-- `outfeedsToPromote` of the reconciliation pass (Map keys: distinct, first
insertion order; the stored status value is only logged). -/
def outfeedsToPromote (ows : List (ApiOrder × PackingStatus)) (queue : List QEntry) :
    List Nat :=
  setList ((retiredRows ows queue).map (fun e => e.outfeed_id))

/-- Phase B, queue advancement: when some tag is retired, delete every queue
row carrying a retired tag, then resequence each promoted outfeed. -/
def advanceQueues (ows : List (ApiOrder × PackingStatus)) (queue : List QEntry) :
    List QEntry :=
  let retired := doneTagsToDelete ows queue
  if retired.isEmpty then queue
  else
    (outfeedsToPromote ows queue).foldl resequenceOutfeed
      (queue.filter (fun e => !(retired.contains e.tag)))

/-- The load of an order id, read through the JS object built from the rows
of the `loads` table. -/
def loadNameOf (loads : List (Nat × String)) (oid : Nat) : Option String :=
  (objFold loads).lookup oid

/-- `loadsGrouped[L]`: the snapshot orders whose order id is assigned to load
L, in snapshot order, with their packing statuses. -/
def ordersInLoad (ows : List (ApiOrder × PackingStatus)) (loads : List (Nat × String))
    (L : String) : List (ApiOrder × PackingStatus) :=
  ows.filter (fun p => loadNameOf loads p.1.id_marketer_order == some L)

/-- The load names having a group, in first-appearance order. -/
def groupedLoadNames (ows : List (ApiOrder × PackingStatus)) (loads : List (Nat × String)) :
    List String :=
  setList (ows.filterMap (fun p => loadNameOf loads p.1.id_marketer_order))

/-- `isLoadShippedOrClosed`: some member order is shipped or closed. -/
def releaseLetterCond (ows : List (ApiOrder × PackingStatus)) (loads : List (Nat × String))
    (L : String) : Bool :=
  (ordersInLoad ows loads L).any (fun p =>
    p.2 == PackingStatus.shipped || p.1.estado_marketer_order == "cerrada")

/-- `isLoadFullyDone`: every member order is done or shipped. -/
def fullyDoneCond (ows : List (ApiOrder × PackingStatus)) (loads : List (Nat × String))
    (L : String) : Bool :=
  (ordersInLoad ows loads L).all (fun p =>
    p.2 == PackingStatus.done || p.2 == PackingStatus.shipped)

/-- `loadsToReleaseLetter` of the reconciliation pass. -/
def loadsToReleaseLetter (ows : List (ApiOrder × PackingStatus))
    (loads : List (Nat × String)) : List String :=
  (groupedLoadNames ows loads).filter (releaseLetterCond ows loads)

/-- `loadsToReleasePriority` of the reconciliation pass (the else-if branch). -/
def loadsToReleasePriority (ows : List (ApiOrder × PackingStatus))
    (loads : List (Nat × String)) : List String :=
  (groupedLoadNames ows loads).filter (fun L =>
    !releaseLetterCond ows loads L && fullyDoneCond ows loads L)

/-- `finalPriorities`: entries of the current priorities object, released
loads filtered out, stably sorted by previous rank, reassigned dense ranks. -/
def finalPrioritiesList (prios : List (String × Int)) (letterSet prioSet : List String) :
    List (String × Int) :=
  (sortBy (fun a b => decide (a.2 ≤ b.2))
    ((objFold prios).filter (fun p =>
      !(letterSet.contains p.1) && !(prioSet.contains p.1)))).enum.map
    (fun ip => (ip.2.1, (ip.1 : Int) + 1))

/-- The JSON body of the order-feed response, abstracted to exactly the shape
the format check inspects: `malformed` covers a body that is not a usable
array, a `none` element covers a first element that is falsy or has no data
array. -/
inductive FeedBody where
  | malformed : FeedBody
  | arr : List (Option (List ApiOrder)) → FeedBody

/-- The format check `!apiData || !apiData[0] || !Array.isArray(apiData[0].data)`. -/
def parseFeed : FeedBody → Except String (List ApiOrder)
  | .arr (some orders :: _) => .ok orders
  | _ => .error "Formato de API de órdenes inesperado."

/-- POST /api/reconcile (planning-board variant): one transaction running the
feed fetch and format check, queue advancement, load release and priority
resequencing; returns the new persisted state on success. The
`line_assignments` and `outfeed_status` tables are never written. -/
def reconcile (fetched : Except String FeedBody) (s : RState) : Except String RState :=
  match fetched with
  | .error e => .error e
  | .ok body =>
    match parseFeed body with
    | .error e => .error e
    | .ok allApiOrders =>
      let ows := ordersWithStatus allApiOrders s.queue s.statuses
      let newQueue := advanceQueues ows s.queue
      let letterSet := loadsToReleaseLetter ows s.loads
      let prioSet := loadsToReleasePriority ows s.loads
      let finalPrios := finalPrioritiesList s.priorities letterSet prioSet
      let newLoads :=
        if letterSet.isEmpty then s.loads
        else s.loads.filter (fun p => !(letterSet.contains p.2))
      .ok { s with queue := newQueue, priorities := finalPrios, loads := newLoads }

/-- The endpoint wrapper: COMMIT and HTTP 200 (true) on success, ROLLBACK
(state unchanged) and HTTP 500 (false) on any thrown error. -/
def reconcileEndpoint (fetched : Except String FeedBody) (s : RState) : RState × Bool :=
  match reconcile fetched s with
  | .ok s1 => (s1, true)
  | .error _ => (s, false)

/-- The per-outfeed contiguity invariant of the specification: the sequence
values of the outfeed's entries are exactly 1..N. -/
def seqContiguous (q : List QEntry) (f : Nat) : Prop :=
  List.Perm ((q.filter (fun e => e.outfeed_id == f)).map (fun e => e.sequence))
    ((List.range' 1 ((q.filter (fun e => e.outfeed_id == f)).length)).map (fun k => (k : Int)))

/-- Phase C applied to the loads table: the whole-load deletion. -/
def releasedLoads (orders : List ApiOrder) (s : RState) : List (Nat × String) :=
  if (loadsToReleaseLetter (ordersWithStatus orders s.queue s.statuses) s.loads).isEmpty
  then s.loads
  else s.loads.filter (fun p =>
    !((loadsToReleaseLetter (ordersWithStatus orders s.queue s.statuses) s.loads).contains p.2))

/-- One successful reconciliation pass as a state transformer. -/
def reconcileStep (orders : List ApiOrder) (s : RState) : RState :=
  { s with
    queue := advanceQueues (ordersWithStatus orders s.queue s.statuses) s.queue,
    priorities := finalPrioritiesList s.priorities
      (loadsToReleaseLetter (ordersWithStatus orders s.queue s.statuses) s.loads)
      (loadsToReleasePriority (ordersWithStatus orders s.queue s.statuses) s.loads),
    loads := releasedLoads orders s }

/-! ### Concrete feeds and states used by witnesses and counterexamples -/

/-- A line classified done: requested 10, assigned 10, nothing shipped. -/
def exDone1 : ApiOrder := ⟨1, "PX", some 10, some 10, some 0, some 1, "abierta"⟩

/-- A second done line, order 2. -/
def exDone2 : ApiOrder := ⟨2, "PY", some 10, some 10, some 0, some 1, "abierta"⟩

/-- A pending open line, order 2. -/
def exPend2 : ApiOrder := ⟨2, "PW", some 10, some 0, some 0, some 1, "abierta"⟩

/-- A pending open line, order 3. -/
def exPend3 : ApiOrder := ⟨3, "PV", some 10, some 0, some 0, some 1, "abierta"⟩

/-- A closed line with nothing shipped and nothing assigned. -/
def exCerr1 : ApiOrder := ⟨1, "P1", some 10, some 0, some 0, some 1, "cerrada"⟩

/-- The empty persisted state. -/
def exSt0 : RState := ⟨[], [], [], [], []⟩

/-- Orders 1 and 2 grouped into load L, which holds rank 1. -/
def exStC1 : RState := ⟨[(1,"L"),(2,"L")], [("L",1)], [], [], []⟩

/-- One outfeed holding tags A and B at sequences 1 and 2. -/
def exStC2 : RState := ⟨[], [], [⟨1,"A",10,"S",1⟩, ⟨1,"B",11,"S",2⟩], [], []⟩

/-- Tag X heads outfeed 1 and also sits at sequence 2 of 3 in outfeed 2. -/
def exStC3 : RState :=
  ⟨[], [], [⟨1,"X",1,"PX",1⟩, ⟨2,"W",2,"PW",1⟩, ⟨2,"X",1,"PX",2⟩, ⟨2,"V",3,"PV",3⟩],
    [(1,"RUNNING"),(2,"RUNNING")], []⟩

/-- The specification scenario: outfeed 1 RUNNING with queue tagX@1, tagY@2. -/
def exStC3w : RState :=
  ⟨[], [], [⟨1,"X",1,"PX",1⟩, ⟨1,"Y",2,"PW",2⟩], [(1,"RUNNING")], []⟩

/-- The reconciled scenario state: tagY promoted to sequence 1. -/
def exStC3wOut : RState := ⟨[], [], [⟨1,"Y",2,"PW",1⟩], [(1,"RUNNING")], []⟩

/-- Two queued done lines on one outfeed. -/
def exStC4 : RState :=
  ⟨[], [], [⟨1,"X",1,"PX",1⟩, ⟨1,"Y",2,"PY",2⟩], [(1,"RUNNING")], []⟩

/-- Loads A and AB with their first tags A001 and AB001 queued. -/
def exStC5 : RState :=
  ⟨[(1,"A"),(2,"AB"),(3,"A")], [], [⟨1,"A001",1,"P1",1⟩, ⟨1,"AB001",2,"P2",2⟩], [], []⟩

/-- Order 7 assigned to load C, nothing queued. -/
def exStC6 : RState := ⟨[(7,"C")], [], [], [], []⟩

/-- Loads L and M ranked 1 and 2; order 1 belongs to L, order 2 to M. -/
def exStC7 : RState := ⟨[(1,"L"),(2,"M")], [("L",1),("M",2)], [], [], []⟩

/-- The reconciled exStC7: load L released, M alone at rank 1. -/
def exStC7Out : RState := ⟨[(2,"M")], [("M",1)], [], [], []⟩

def countLine (q : List QEntry) (f : Nat) (oid : Nat) (sid : String) : Nat :=
  (q.filter (fun e =>
    e.outfeed_id == f && e.order_id == oid && e.standard_id == sid)).length

def exStC6Out : RState := ⟨[(7,"C")], [], [⟨1,"C001",7,"S",1⟩], [], []⟩

/-! ### Library lemmas for the embedded list operations -/

theorem jsDiv_eq_div (a b : ℚ) : jsDiv a b = a / b := by
  rcases eq_or_ne b 0 with hb | hb
  · subst hb
    rw [jsDiv]
    norm_num
  · have hda : ((a.den : ℚ)) ≠ 0 := Nat.cast_ne_zero.mpr a.den_nz
    have hnb : ((b.num : ℚ)) ≠ 0 := Int.cast_ne_zero.mpr (Rat.num_ne_zero.mpr hb)
    conv_rhs => rw [← Rat.num_div_den a, ← Rat.num_div_den b]
    rw [jsDiv, Rat.divInt_eq_div]
    push_cast
    field_simp


theorem insertBy_perm {α : Type} (le : α → α → Bool) (x : α) (l : List α) :
    List.Perm (insertBy le x l) (x :: l) := by
  induction l with
  | nil => exact List.Perm.refl _
  | cons y ys ih =>
    rw [insertBy]
    by_cases h : le x y
    · simp [h]
    · simp only [h, if_false]
      exact (ih.cons y).trans (List.Perm.swap x y ys)

theorem sortBy_perm {α : Type} (le : α → α → Bool) (l : List α) :
    List.Perm (sortBy le l) l := by
  induction l with
  | nil => exact List.Perm.refl _
  | cons a rest ih => exact (insertBy_perm le a (sortBy le rest)).trans (ih.cons a)

theorem mem_sortBy {α : Type} {le : α → α → Bool} {l : List α} {a : α} :
    a ∈ sortBy le l ↔ a ∈ l := (sortBy_perm le l).mem_iff

theorem pairwise_insertBy {α : Type} {le : α → α → Bool}
    (htot : ∀ a b, le a b || le b a) (htrans : ∀ a b c, le a b → le b c → le a c)
    {x : α} {l : List α} (h : l.Pairwise (fun a b => le a b)) :
    (insertBy le x l).Pairwise (fun a b => le a b) := by
  induction l with
  | nil => simp [insertBy]
  | cons y ys ih =>
    rw [insertBy]
    by_cases hxy : le x y
    · simp only [hxy, if_true]
      refine List.Pairwise.cons ?_ h
      intro z hz
      rcases List.mem_cons.mp hz with rfl | hz2
      · exact hxy
      · exact htrans x y z hxy (List.rel_of_pairwise_cons h hz2)
    · have hyx : le y x := by
        rcases Bool.or_eq_true_iff.mp (htot x y) with h1 | h1
        · exact absurd h1 hxy
        · exact h1
      simp only [hxy, if_false]
      refine List.Pairwise.cons ?_ (ih h.tail)
      intro z hz
      rcases List.mem_cons.mp ((insertBy_perm le x ys).mem_iff.mp hz) with rfl | h2
      · exact hyx
      · exact List.rel_of_pairwise_cons h h2

theorem sortBy_pairwise {α : Type} {le : α → α → Bool}
    (htot : ∀ a b, le a b || le b a) (htrans : ∀ a b c, le a b → le b c → le a c)
    (l : List α) : (sortBy le l).Pairwise (fun a b => le a b) := by
  induction l with
  | nil => simp [sortBy]
  | cons a rest ih => exact pairwise_insertBy htot htrans ih

theorem sortBy_of_pairwise {α : Type} {le : α → α → Bool} {l : List α}
    (h : l.Pairwise (fun a b => le a b)) : sortBy le l = l := by
  induction l with
  | nil => rfl
  | cons a rest ih =>
    rw [sortBy, ih h.tail]
    cases rest with
    | nil => rfl
    | cons y ys =>
      rw [insertBy, if_pos (List.rel_of_pairwise_cons h (List.mem_cons_self y ys))]

theorem filter_insertBy_pos {α : Type} {le : α → α → Bool} {p : α → Bool} {x : α}
    (hx : p x = true) (hle : ∀ y, p y = true → le x y = true) (l : List α) :
    (insertBy le x l).filter p = x :: l.filter p := by
  induction l with
  | nil => simp [insertBy, hx]
  | cons y ys ih =>
    rw [insertBy]
    by_cases hxy : le x y
    · simp [hxy, hx]
    · have hpy : p y = false := by
        cases hp : p y
        · rfl
        · exact absurd (hle y hp) hxy
      simp [hxy, List.filter_cons, hpy, ih]

theorem filter_insertBy_neg {α : Type} {le : α → α → Bool} {p : α → Bool} {x : α}
    (hx : p x = false) (l : List α) :
    (insertBy le x l).filter p = l.filter p := by
  induction l with
  | nil => simp [insertBy, hx]
  | cons y ys ih =>
    rw [insertBy]
    by_cases hxy : le x y
    · simp [hxy, List.filter_cons, hx]
    · simp [hxy, List.filter_cons, ih]

theorem filter_sortBy_ties {α : Type} {le : α → α → Bool} {p : α → Bool}
    (hcl : ∀ x y, p x = true → p y = true → le x y = true) (l : List α) :
    (sortBy le l).filter p = l.filter p := by
  induction l with
  | nil => rfl
  | cons a rest ih =>
    rw [sortBy]
    cases ha : p a
    · rw [filter_insertBy_neg ha, ih, List.filter_cons, ha]
      simp
    · rw [filter_insertBy_pos ha (fun y hy => hcl a y ha hy), ih, List.filter_cons, ha]
      simp

theorem sortBy_length {α : Type} (le : α → α → Bool) (l : List α) :
    (sortBy le l).length = l.length := (sortBy_perm le l).length_eq

theorem nodup_append_singleton {α : Type} {l : List α} {x : α}
    (h : l.Nodup) (hx : x ∉ l) : (l ++ [x]).Nodup := by
  rw [List.nodup_append]
  refine ⟨h, List.nodup_singleton x, ?_⟩
  intro a ha hb
  rw [List.mem_singleton] at hb
  subst hb
  exact hx ha

theorem foldl_setList_mem {α : Type} [DecidableEq α] (l : List α) (acc : List α) (a : α) :
    a ∈ l.foldl (fun acc x => if acc.contains x then acc else acc ++ [x]) acc ↔
      a ∈ acc ∨ a ∈ l := by
  induction l generalizing acc with
  | nil => simp
  | cons x xs ih =>
    rw [List.foldl_cons, ih]
    by_cases hc : acc.contains x = true
    · have hx : x ∈ acc := by simpa using hc
      rw [if_pos hc]
      simp only [List.mem_cons]
      constructor
      · rintro (h | h)
        · exact Or.inl h
        · exact Or.inr (Or.inr h)
      · rintro (h | rfl | h)
        · exact Or.inl h
        · exact Or.inl hx
        · exact Or.inr h
    · rw [if_neg hc]
      simp only [List.mem_append, List.mem_singleton, List.mem_cons]
      tauto

theorem mem_setList {α : Type} [DecidableEq α] {l : List α} {a : α} :
    a ∈ setList l ↔ a ∈ l := by
  rw [setList, foldl_setList_mem]
  simp

theorem foldl_setList_nodup {α : Type} [DecidableEq α] (l : List α) (acc : List α)
    (h : acc.Nodup) :
    (l.foldl (fun acc x => if acc.contains x then acc else acc ++ [x]) acc).Nodup := by
  induction l generalizing acc with
  | nil => exact h
  | cons x xs ih =>
    rw [List.foldl_cons]
    by_cases hc : acc.contains x = true
    · rw [if_pos hc]
      exact ih acc h
    · rw [if_neg hc]
      have hx : x ∉ acc := by simpa using hc
      exact ih _ (nodup_append_singleton h hx)

theorem nodup_setList {α : Type} [DecidableEq α] (l : List α) : (setList l).Nodup :=
  foldl_setList_nodup l [] List.nodup_nil

theorem objFold_keys_aux {κ β : Type} [DecidableEq κ] (rows : List (κ × β))
    (acc : List (κ × β)) (hnd : (acc.map Prod.fst).Nodup) :
    ((rows.foldl (fun acc kv =>
      if acc.any (fun p => p.1 == kv.1) then
        acc.map (fun p => if p.1 == kv.1 then (p.1, kv.2) else p)
      else acc ++ [kv]) acc).map Prod.fst).Nodup := by
  induction rows generalizing acc with
  | nil => exact hnd
  | cons kv rest ih =>
    rw [List.foldl_cons]
    by_cases hc : acc.any (fun p => p.1 == kv.1) = true
    · rw [if_pos hc]
      refine ih _ ?_
      have hmap : (acc.map (fun p => if p.1 == kv.1 then (p.1, kv.2) else p)).map Prod.fst =
          acc.map Prod.fst := by
        rw [List.map_map]
        refine List.map_congr_left ?_
        intro p _
        by_cases hp : p.1 == kv.1
        · rw [Function.comp_apply, if_pos hp]
        · rw [Function.comp_apply, if_neg hp]
      rw [hmap]
      exact hnd
    · rw [if_neg hc]
      refine ih _ ?_
      have hk : kv.1 ∉ acc.map Prod.fst := by
        intro hmem
        rcases List.mem_map.mp hmem with ⟨p, hp, he⟩
        exact hc (List.any_eq_true.mpr ⟨p, hp, by simp [he]⟩)
      rw [List.map_append]
      exact nodup_append_singleton hnd (by simpa using hk)

theorem objFold_keys_nodup {κ β : Type} [DecidableEq κ] (rows : List (κ × β)) :
    ((objFold rows).map Prod.fst).Nodup :=
  objFold_keys_aux rows [] (by simp)

theorem objFold_eq_self_aux {κ β : Type} [DecidableEq κ] (rows : List (κ × β))
    (acc : List (κ × β)) (hnd : ((acc ++ rows).map Prod.fst).Nodup) :
    rows.foldl (fun acc kv =>
      if acc.any (fun p => p.1 == kv.1) then
        acc.map (fun p => if p.1 == kv.1 then (p.1, kv.2) else p)
      else acc ++ [kv]) acc = acc ++ rows := by
  induction rows generalizing acc with
  | nil => simp
  | cons kv rest ih =>
    rw [List.foldl_cons]
    have hnd1 : ((acc.map Prod.fst) ++ ((kv :: rest).map Prod.fst)).Nodup := by
      rw [← List.map_append]
      exact hnd
    have hdisj := (List.nodup_append.mp hnd1).2.2
    have hk : kv.1 ∉ acc.map Prod.fst := fun hmem => (hdisj hmem) (by simp)
    have hc : (acc.any (fun p => p.1 == kv.1)) ≠ true := by
      intro hany
      rcases List.any_eq_true.mp hany with ⟨p, hp, hpe⟩
      exact hk (List.mem_map.mpr ⟨p, hp, by simpa using hpe⟩)
    rw [if_neg hc]
    have hstep : ((acc ++ [kv]) ++ rest).map Prod.fst |>.Nodup := by
      have hassoc : (acc ++ [kv]) ++ rest = acc ++ kv :: rest := by simp
      rw [hassoc]
      exact hnd
    rw [ih (acc ++ [kv]) hstep]
    simp

theorem objFold_eq_self {κ β : Type} [DecidableEq κ] {rows : List (κ × β)}
    (hnd : (rows.map Prod.fst).Nodup) : objFold rows = rows := by
  have h := objFold_eq_self_aux rows [] (by simpa using hnd)
  simpa [objFold] using h

theorem lookup_eq_some_mem {κ β : Type} [DecidableEq κ] {l : List (κ × β)} {k : κ} {v : β}
    (h : l.lookup k = some v) : (k, v) ∈ l := by
  induction l with
  | nil => simp [List.lookup] at h
  | cons p rest ih =>
    obtain ⟨k1, v1⟩ := p
    by_cases hk : k = k1
    · subst hk
      simp [List.lookup] at h
      subst h
      exact List.mem_cons_self _ _
    · have hb : (k == k1) = false := beq_eq_false_iff_ne.mpr hk
      simp only [List.lookup, hb] at h
      exact List.mem_cons_of_mem _ (ih h)

theorem lookup_eq_none_iff {κ β : Type} [DecidableEq κ] {l : List (κ × β)} {k : κ} :
    l.lookup k = none ↔ k ∉ l.map Prod.fst := by
  induction l with
  | nil => simp [List.lookup]
  | cons p rest ih =>
    obtain ⟨k1, v1⟩ := p
    by_cases hk : k = k1
    · subst hk
      simp [List.lookup]
    · have hb : (k == k1) = false := beq_eq_false_iff_ne.mpr hk
      simp [List.lookup, hb, ih, hk]

theorem lookup_of_mem_nodup {κ β : Type} [DecidableEq κ] {l : List (κ × β)} {k : κ} {v : β}
    (hnd : (l.map Prod.fst).Nodup) (hm : (k, v) ∈ l) : l.lookup k = some v := by
  induction l with
  | nil => simp at hm
  | cons p rest ih =>
    obtain ⟨k1, v1⟩ := p
    have hnd2 : k1 ∉ rest.map Prod.fst ∧ (rest.map Prod.fst).Nodup := by
      rw [List.map_cons, List.nodup_cons] at hnd
      exact hnd
    rcases List.mem_cons.mp hm with he | hm2
    · cases he
      simp [List.lookup]
    · have hk : k ≠ k1 := by
        rintro rfl
        exact hnd2.1 (List.mem_map.mpr ⟨(k, v), hm2, rfl⟩)
      have hb : (k == k1) = false := beq_eq_false_iff_ne.mpr hk
      simp only [List.lookup, hb]
      exact ih hnd2.2 hm2

theorem lookup_filter_nodup {κ β : Type} [DecidableEq κ] {l : List (κ × β)}
    (q : κ × β → Bool) (hnd : (l.map Prod.fst).Nodup) (k : κ) :
    (l.filter q).lookup k = (l.lookup k).bind (fun v => if q (k, v) then some v else none) := by
  induction l with
  | nil => simp [List.lookup]
  | cons p rest ih =>
    obtain ⟨k1, v1⟩ := p
    have hnd2 : k1 ∉ rest.map Prod.fst ∧ (rest.map Prod.fst).Nodup := by
      rw [List.map_cons, List.nodup_cons] at hnd
      exact hnd
    by_cases hk : k = k1
    · subst hk
      by_cases hq : q (k, v1) = true
      · rw [List.filter_cons, if_pos hq]
        simp [List.lookup, hq]
      · rw [List.filter_cons, if_neg hq]
        have hnone : (rest.filter q).lookup k = none := by
          rw [lookup_eq_none_iff]
          intro hmem
          rcases List.mem_map.mp hmem with ⟨p2, hp2, he⟩
          exact hnd2.1 (List.mem_map.mpr ⟨p2, List.mem_of_mem_filter hp2, he⟩)
        rw [hnone]
        simp [List.lookup, hq]
    · have hb : (k == k1) = false := beq_eq_false_iff_ne.mpr hk
      rw [List.filter_cons]
      by_cases hq : q (k1, v1) = true
      · rw [if_pos hq]
        simp only [List.lookup, hb]
        exact ih hnd2.2
      · rw [if_neg hq]
        rw [ih hnd2.2]
        simp only [List.lookup, hb]

/-! ### Claim C8: the completion classifier -/

theorem getPackingStatus_eq_specClassify (o : ApiOrder) (b : Bool) :
    getPackingStatus o b = specClassify o b := by
  unfold getPackingStatus specClassify specRules firstMatch
  by_cases h1 : 0 < numOr0 o.cantidad_despachada <;>
    by_cases h2 : 0 < numOr0 o.cantidad_solicitada ∧
      jsDiv (numOr0 o.cantidad_solicitada) (cajasOr1 o.cajas_por_pallet) ≤
        jsDiv (numOr0 o.cantidad_asignada) (cajasOr1 o.cajas_por_pallet) <;>
    by_cases h3 : 0 < numOr0 o.cantidad_asignada <;>
    cases b <;>
    simp [h1, h2, h3, firstMatch, Bool.and_eq_true, decide_eq_true_eq]

theorem mem_isBeingPackedKeys (queue : List QEntry) (statuses : List (Nat × String))
    (oid : Nat) (sid : String) :
    (oid, sid) ∈ isBeingPackedKeys queue statuses ↔
      ∃ e ∈ queue, e.sequence = 1 ∧ e.order_id = oid ∧ e.standard_id = sid ∧
        statusOf statuses e.outfeed_id = some "RUNNING" := by
  simp only [isBeingPackedKeys, List.mem_map, List.mem_filter, Bool.and_eq_true, beq_iff_eq,
    Prod.mk.injEq]
  constructor
  · rintro ⟨e, ⟨he, hs, hr⟩, h1, h2⟩
    exact ⟨e, he, hs, h1, h2, hr⟩
  · rintro ⟨e, he, hs, h1, h2, hr⟩
    exact ⟨e, ⟨he, hs, hr⟩, h1, h2⟩

/-- C8: the classifier coerces absent and non-numeric quantities to 0
(boxes-per-pallet to 1 when absent or zero) and is exactly the ordered
first-match rule list the specification gives — shipped, done, being-packed,
partially, pending — where the being-packed keys are precisely the lines
occupying sequence position 1 of an outfeed whose looked-up status is
RUNNING. -/
theorem classifier_matches_spec :
    (∀ (o : ApiOrder) (b : Bool), getPackingStatus o b = specClassify o b) ∧
      (∀ (queue : List QEntry) (statuses : List (Nat × String)) (oid : Nat) (sid : String),
        (oid, sid) ∈ isBeingPackedKeys queue statuses ↔
          ∃ e ∈ queue, e.sequence = 1 ∧ e.order_id = oid ∧ e.standard_id = sid ∧
            statusOf statuses e.outfeed_id = some "RUNNING") :=
  ⟨getPackingStatus_eq_specClassify, mem_isBeingPackedKeys⟩

/-! ### Classifier corollaries -/

theorem getPackingStatus_eq_shipped_iff (o : ApiOrder) (b : Bool) :
    getPackingStatus o b = .shipped ↔ 0 < numOr0 o.cantidad_despachada := by
  unfold getPackingStatus
  by_cases h1 : 0 < numOr0 o.cantidad_despachada
  · simp [h1]
  · simp only [h1, if_false]
    split_ifs <;> simp [h1]

theorem getPackingStatus_done_or_shipped_iff (o : ApiOrder) (b : Bool) :
    (getPackingStatus o b = .done ∨ getPackingStatus o b = .shipped) ↔
      (0 < numOr0 o.cantidad_despachada ∨
        (0 < numOr0 o.cantidad_solicitada ∧
          jsDiv (numOr0 o.cantidad_solicitada) (cajasOr1 o.cajas_por_pallet) ≤
            jsDiv (numOr0 o.cantidad_asignada) (cajasOr1 o.cajas_por_pallet))) := by
  unfold getPackingStatus
  by_cases h1 : 0 < numOr0 o.cantidad_despachada
  · simp [h1]
  · simp only [h1, if_false]
    split_ifs <;> simp_all

/-! ### Claim C9: atomicity on feed failure -/

/-- C9: when the feed fetch fails, or the body fails the single-element
envelope format check, the reconcile endpoint reports failure and leaves
every persisted collection exactly as it was. -/
theorem reconcile_atomic_on_feed_failure (fetched : Except String FeedBody) (s : RState)
    (h : ∀ b, fetched = .ok b → ∃ msg, parseFeed b = .error msg) :
    reconcileEndpoint fetched s = (s, false) := by
  cases fetched with
  | error e => rfl
  | ok b =>
    obtain ⟨msg, hmsg⟩ := h b rfl
    simp [reconcileEndpoint, reconcile, hmsg]

/-- C9 witness: a failed fetch and a malformed body both leave the state
untouched and report failure. -/
theorem reconcile_atomic_witness :
    reconcileEndpoint (.error "network") exStC2 = (exStC2, false) ∧
      reconcileEndpoint (.ok .malformed) exStC2 = (exStC2, false) :=
  ⟨reconcile_atomic_on_feed_failure _ _ (fun b hb => by cases hb),
   reconcile_atomic_on_feed_failure _ _ (fun b hb => by
      cases hb
      exact ⟨_, rfl⟩)⟩

/-! ### Claim C10: frame property of reconciliation -/

/-- C10: a successful reconciliation writes only the loads, priorities and
outfeed-queue collections; line assignments and outfeed statuses are read
but never modified. -/
theorem reconcile_frame (fetched : Except String FeedBody) (s s1 : RState)
    (h : reconcile fetched s = .ok s1) :
    s1.lineAssignments = s.lineAssignments ∧ s1.statuses = s.statuses := by
  cases fetched with
  | error e => simp [reconcile] at h
  | ok b =>
    cases hb : parseFeed b with
    | error msg => simp [reconcile, hb] at h
    | ok orders =>
      simp only [reconcile, hb] at h
      cases h
      exact ⟨rfl, rfl⟩

/-- C10 witness: a successful run on the empty state. -/
theorem reconcile_frame_witness :
    exSt0.lineAssignments = exSt0.lineAssignments ∧ exSt0.statuses = exSt0.statuses :=
  reconcile_frame (.ok (.arr [some []])) exSt0 exSt0 rfl

/-! ### Queue resequencing lemmas -/

theorem mem_renumberSeq {l : List QEntry} {e : QEntry} (h : e ∈ renumberSeq l) :
    ∃ e0 ∈ l, e.outfeed_id = e0.outfeed_id ∧ e.tag = e0.tag := by
  rcases List.mem_map.mp h with ⟨p, hp, rfl⟩
  refine ⟨p.2, ?_, rfl, rfl⟩
  have h2 := List.enum_map_snd l
  exact h2 ▸ List.mem_map_of_mem Prod.snd hp

theorem enumFrom_map_succ_cast {β : Type} (l : List β) (n : Nat) :
    (List.enumFrom n l).map (fun p => ((p.1 : Int) + 1)) =
      (List.range' (n + 1) l.length).map (fun k => (k : Int)) := by
  induction l generalizing n with
  | nil => rfl
  | cons e rest ih =>
    show ((n : Int) + 1) :: (List.enumFrom (n + 1) rest).map (fun p => ((p.1 : Int) + 1)) = _
    rw [ih]
    show _ = ((n + 1 : Nat) : Int) :: (List.range' (n + 1 + 1) rest.length).map (fun k => (k : Int))
    push_cast
    rfl

theorem renumberSeq_map_seq (l : List QEntry) :
    (renumberSeq l).map (fun e => e.sequence) =
      (List.range' 1 l.length).map (fun k => (k : Int)) := by
  rw [renumberSeq, List.map_map]
  show (List.enumFrom 0 l).map (fun p => ((p.1 : Int) + 1)) = _
  rw [enumFrom_map_succ_cast]

theorem renumberSeq_length (l : List QEntry) : (renumberSeq l).length = l.length := by
  rw [renumberSeq, List.length_map, List.enum_length]

theorem mem_resequence_tag {q : List QEntry} {g : Nat} {e : QEntry}
    (h : e ∈ resequenceOutfeed q g) : ∃ e0 ∈ q, e.tag = e0.tag := by
  rw [resequenceOutfeed, List.mem_append] at h
  rcases h with h | h
  · exact ⟨e, List.mem_of_mem_filter h, rfl⟩
  · rcases mem_renumberSeq h with ⟨e0, he0, _, ht⟩
    exact ⟨e0, List.mem_of_mem_filter (mem_sortBy.mp he0), ht⟩

theorem mem_foldl_resequence_tag {L : List Nat} {q : List QEntry} {e : QEntry}
    (h : e ∈ L.foldl resequenceOutfeed q) : ∃ e0 ∈ q, e.tag = e0.tag := by
  induction L generalizing q with
  | nil => exact ⟨e, h, rfl⟩
  | cons g rest ih =>
    rw [List.foldl_cons] at h
    rcases ih h with ⟨e1, he1, ht1⟩
    rcases mem_resequence_tag he1 with ⟨e0, he0, ht0⟩
    exact ⟨e0, he0, ht1.trans ht0⟩

theorem filter_resequence_ne {q : List QEntry} {f g : Nat} (hfg : f ≠ g) :
    (resequenceOutfeed q g).filter (fun e => e.outfeed_id == f) =
      q.filter (fun e => e.outfeed_id == f) := by
  rw [resequenceOutfeed, List.filter_append]
  have h2 : (renumberSeq (sortBy (fun a b => decide (a.sequence ≤ b.sequence))
      (q.filter (fun e => e.outfeed_id == g)))).filter (fun e => e.outfeed_id == f) = [] := by
    rw [List.filter_eq_nil_iff]
    intro e he
    rcases mem_renumberSeq he with ⟨e0, he0, hof, _⟩
    have hg : e0.outfeed_id = g := by
      have := List.of_mem_filter (mem_sortBy.mp he0)
      simpa using this
    simp [hof, hg, Ne.symm hfg]
  rw [h2, List.append_nil, List.filter_filter]
  refine List.filter_congr ?_
  intro e _
  by_cases he : e.outfeed_id = f
  · have hne : e.outfeed_id ≠ g := he ▸ hfg
    simp [he, hne, hfg]
  · simp [he]

theorem filter_resequence_self (q : List QEntry) (f : Nat) :
    (resequenceOutfeed q f).filter (fun e => e.outfeed_id == f) =
      renumberSeq (sortBy (fun a b => decide (a.sequence ≤ b.sequence))
        (q.filter (fun e => e.outfeed_id == f))) := by
  rw [resequenceOutfeed, List.filter_append]
  have h1 : (q.filter (fun e => e.outfeed_id != f)).filter (fun e => e.outfeed_id == f) = [] := by
    rw [List.filter_eq_nil_iff]
    intro e he
    have := List.of_mem_filter he
    simpa using this
  have h2 : (renumberSeq (sortBy (fun a b => decide (a.sequence ≤ b.sequence))
      (q.filter (fun e => e.outfeed_id == f)))).filter (fun e => e.outfeed_id == f) =
      renumberSeq (sortBy (fun a b => decide (a.sequence ≤ b.sequence))
        (q.filter (fun e => e.outfeed_id == f))) := by
    rw [List.filter_eq_self]
    intro e he
    rcases mem_renumberSeq he with ⟨e0, he0, hof, _⟩
    have hg : e0.outfeed_id = f := by
      have := List.of_mem_filter (mem_sortBy.mp he0)
      simpa using this
    simp [hof, hg]
  rw [h1, h2, List.nil_append]

theorem foldl_resequence_not_mem {L : List Nat} {q : List QEntry} {f : Nat} (hf : f ∉ L) :
    (L.foldl resequenceOutfeed q).filter (fun e => e.outfeed_id == f) =
      q.filter (fun e => e.outfeed_id == f) := by
  induction L generalizing q with
  | nil => rfl
  | cons g rest ih =>
    rw [List.foldl_cons, ih (fun h => hf (List.mem_cons_of_mem g h))]
    exact filter_resequence_ne (fun h => hf (h ▸ List.mem_cons_self g rest))

theorem foldl_resequence_mem {L : List Nat} (hnd : L.Nodup) {q : List QEntry} {f : Nat}
    (hf : f ∈ L) :
    (L.foldl resequenceOutfeed q).filter (fun e => e.outfeed_id == f) =
      renumberSeq (sortBy (fun a b => decide (a.sequence ≤ b.sequence))
        (q.filter (fun e => e.outfeed_id == f))) := by
  induction L generalizing q with
  | nil => cases hf
  | cons g rest ih =>
    rw [List.foldl_cons]
    have hnd2 := List.nodup_cons.mp hnd
    rcases List.mem_cons.mp hf with rfl | hf2
    · rw [foldl_resequence_not_mem hnd2.1]
      exact filter_resequence_self q f
    · have hfg : f ≠ g := fun h => hnd2.1 (h ▸ hf2)
      rw [ih hnd2.2 hf2, filter_resequence_ne hfg]

theorem promote_nil_of_retired_nil {ows : List (ApiOrder × PackingStatus)}
    {queue : List QEntry} (h : doneTagsToDelete ows queue = []) :
    outfeedsToPromote ows queue = [] := by
  rw [doneTagsToDelete, List.map_eq_nil_iff] at h
  rw [outfeedsToPromote, h]
  rfl

theorem advanceQueues_no_retired (ows : List (ApiOrder × PackingStatus))
    (queue : List QEntry) :
    ∀ e ∈ advanceQueues ows queue, e.tag ∉ doneTagsToDelete ows queue := by
  intro e he
  simp only [advanceQueues] at he
  by_cases hr : (doneTagsToDelete ows queue).isEmpty
  · rw [if_pos hr] at he
    rw [List.isEmpty_iff] at hr
    rw [hr]
    exact List.not_mem_nil _
  · rw [if_neg hr] at he
    rcases mem_foldl_resequence_tag he with ⟨e0, he0, ht⟩
    have hkeep := List.of_mem_filter he0
    intro hmem
    rw [ht] at hmem
    simp at hkeep
    exact hkeep hmem

theorem advanceQueues_promoted_filter (ows : List (ApiOrder × PackingStatus))
    (queue : List QEntry) {f : Nat} (hf : f ∈ outfeedsToPromote ows queue) :
    (advanceQueues ows queue).filter (fun e => e.outfeed_id == f) =
      renumberSeq (sortBy (fun a b => decide (a.sequence ≤ b.sequence))
        ((queue.filter (fun e => !((doneTagsToDelete ows queue).contains e.tag))).filter
          (fun e => e.outfeed_id == f))) := by
  simp only [advanceQueues]
  by_cases hr : (doneTagsToDelete ows queue).isEmpty
  · exfalso
    rw [List.isEmpty_iff] at hr
    rw [promote_nil_of_retired_nil hr] at hf
    exact List.not_mem_nil f hf
  · rw [if_neg hr]
    exact foldl_resequence_mem (nodup_setList _) hf

/-! ### Claim C3: reconciliation queue advancement -/

/-- C3 amended: on a successful reconciliation every retired tag (a tag whose
sequence-1 entry in some outfeed belongs to a line classified done or
shipped) is removed from every outfeed queue, and each promoted outfeed — an
outfeed in which a retired tag stood at sequence 1 — is rewritten to its
surviving rows in prior sequence order renumbered contiguously 1..N;
outfeeds that lose the tag from a later position only are left as the bare
deletion leaves them. -/
theorem queue_advancement_rule (b : FeedBody) (orders : List ApiOrder) (s s1 : RState)
    (hb : parseFeed b = .ok orders) (h : reconcile (.ok b) s = .ok s1) :
    (∀ e ∈ s1.queue,
      e.tag ∉ doneTagsToDelete (ordersWithStatus orders s.queue s.statuses) s.queue) ∧
    (∀ f ∈ outfeedsToPromote (ordersWithStatus orders s.queue s.statuses) s.queue,
      s1.queue.filter (fun e => e.outfeed_id == f) =
        renumberSeq (sortBy (fun a b => decide (a.sequence ≤ b.sequence))
          ((s.queue.filter (fun e =>
            !((doneTagsToDelete (ordersWithStatus orders s.queue s.statuses)
                s.queue).contains e.tag))).filter (fun e => e.outfeed_id == f)))) ∧
    (∀ f ∈ outfeedsToPromote (ordersWithStatus orders s.queue s.statuses) s.queue,
      (s1.queue.filter (fun e => e.outfeed_id == f)).map (fun e => e.sequence) =
        (List.range' 1 (s1.queue.filter (fun e => e.outfeed_id == f)).length).map
          (fun k => (k : Int))) := by
  have hq : s1.queue = advanceQueues (ordersWithStatus orders s.queue s.statuses) s.queue := by
    simp only [reconcile, hb] at h
    cases h
    rfl
  refine ⟨?_, ?_, ?_⟩
  · rw [hq]
    exact advanceQueues_no_retired _ _
  · intro f hf
    rw [hq]
    exact advanceQueues_promoted_filter _ _ hf
  · intro f hf
    rw [hq, advanceQueues_promoted_filter _ _ hf, renumberSeq_map_seq, renumberSeq_length]

/-- C3 counterexample to the claim as stated: the retired tag X is also
deleted from outfeed 2 where it stood at sequence 2, but outfeed 2 is not
resequenced and is left with the gapped sequences 1, 3. -/
theorem queue_advancement_claim_counterexample :
    (reconcile (.ok (.arr [some [exDone1, exPend2, exPend3]])) exStC3).map RState.queue =
      .ok [⟨2,"W",2,"PW",1⟩, ⟨2,"V",3,"PV",3⟩] ∧
    ¬ seqContiguous [⟨2,"W",2,"PW",1⟩, ⟨2,"V",3,"PV",3⟩] 2 := by
  constructor
  · rfl
  · rw [seqContiguous]
    decide

/-- C3 witness: the claim scenario — outfeed 1 RUNNING with queue
tagX@1, tagY@2 and the line behind tagX done — reconciles to tagY at
sequence 1, with the retired tag X gone. -/
theorem queue_advancement_witness :
    reconcile (.ok (.arr [some [exDone1, exPend2]])) exStC3w = .ok exStC3wOut ∧
      exStC3wOut.queue = [⟨1,"Y",2,"PW",1⟩] ∧
      (∀ e ∈ exStC3wOut.queue,
        e.tag ∉ doneTagsToDelete
          (ordersWithStatus [exDone1, exPend2] exStC3w.queue exStC3w.statuses) exStC3w.queue) :=
  ⟨rfl, rfl,
    (queue_advancement_rule (.arr [some [exDone1, exPend2]]) [exDone1, exPend2]
      exStC3w exStC3wOut rfl rfl).1⟩

theorem mem_map_fst_iff {κ β : Type} {l : List (κ × β)} {k : κ} :
    k ∈ l.map Prod.fst ↔ ∃ v, (k, v) ∈ l := by
  rw [List.mem_map]
  constructor
  · rintro ⟨⟨k1, v⟩, hm, rfl⟩
    exact ⟨v, hm⟩
  · rintro ⟨v, hm⟩
    exact ⟨(k, v), hm, rfl⟩

theorem finalPrioritiesList_length (prios : List (String × Int)) (A B : List String) :
    (finalPrioritiesList prios A B).length =
      (sortBy (fun a b => decide (a.2 ≤ b.2)) ((objFold prios).filter (fun p =>
        !(A.contains p.1) && !(B.contains p.1)))).length := by
  rw [finalPrioritiesList, List.length_map, List.enum_length]

theorem finalPrioritiesList_get (prios : List (String × Int)) (A B : List String)
    (i : Nat)
    (hs : i < (sortBy (fun a b => decide (a.2 ≤ b.2)) ((objFold prios).filter (fun p =>
      !(A.contains p.1) && !(B.contains p.1)))).length)
    (hi : i < (finalPrioritiesList prios A B).length) :
    (finalPrioritiesList prios A B)[i] =
      (((sortBy (fun a b => decide (a.2 ≤ b.2)) ((objFold prios).filter (fun p =>
        !(A.contains p.1) && !(B.contains p.1))))[i]).1, (i : Int) + 1) := by
  have he : i < (sortBy (fun a b => decide (a.2 ≤ b.2)) ((objFold prios).filter (fun p =>
      !(A.contains p.1) && !(B.contains p.1)))).enum.length := by
    rw [List.enum_length]
    exact hs
  simp only [finalPrioritiesList, List.getElem_map, List.getElem_enum]

theorem finalPrioritiesList_map_fst (prios : List (String × Int)) (A B : List String) :
    (finalPrioritiesList prios A B).map Prod.fst =
      (sortBy (fun a b => decide (a.2 ≤ b.2)) ((objFold prios).filter (fun p =>
        !(A.contains p.1) && !(B.contains p.1)))).map Prod.fst := by
  rw [finalPrioritiesList, List.map_map]
  have he : (Prod.fst ∘ fun ip : Nat × (String × Int) => (ip.2.1, (ip.1 : Int) + 1)) =
      (Prod.fst ∘ Prod.snd) := rfl
  rw [he, ← List.map_map, List.enum_map_snd]

theorem finalPrioritiesList_map_snd (prios : List (String × Int)) (A B : List String) :
    (finalPrioritiesList prios A B).map Prod.snd =
      (List.range' 1 (finalPrioritiesList prios A B).length).map (fun k => (k : Int)) := by
  rw [finalPrioritiesList, List.map_map, List.length_map, List.enum_length]
  have he : (Prod.snd ∘ fun ip : Nat × (String × Int) => (ip.2.1, (ip.1 : Int) + 1)) =
      (fun ip : Nat × (String × Int) => ((ip.1 : Int) + 1)) := rfl
  rw [he]
  show (List.enumFrom 0 _).map _ = _
  rw [enumFrom_map_succ_cast]

theorem mem_finalPrioritiesList (prios : List (String × Int)) (A B : List String)
    (L : String) (r : Int) :
    (L, r) ∈ finalPrioritiesList prios A B ↔
      ∃ i, ∃ hs : i < (sortBy (fun a b => decide (a.2 ≤ b.2)) ((objFold prios).filter (fun p =>
        !(A.contains p.1) && !(B.contains p.1)))).length,
        ((sortBy (fun a b => decide (a.2 ≤ b.2)) ((objFold prios).filter (fun p =>
          !(A.contains p.1) && !(B.contains p.1)))).get ⟨i, hs⟩).1 = L ∧ r = (i : Int) + 1 := by
  rw [List.mem_iff_getElem]
  constructor
  · rintro ⟨i, hi, hget⟩
    have hs : i < (sortBy (fun a b => decide (a.2 ≤ b.2)) ((objFold prios).filter (fun p =>
        !(A.contains p.1) && !(B.contains p.1)))).length := by
      rw [finalPrioritiesList_length] at hi
      exact hi
    rw [finalPrioritiesList_get prios A B i hs hi] at hget
    have h1 := congrArg Prod.fst hget
    have h2 := congrArg Prod.snd hget
    simp only at h1 h2
    exact ⟨i, hs, by rw [← h1, List.get_eq_getElem], h2.symm⟩
  · rintro ⟨i, hs, hL, rfl⟩
    have hi : i < (finalPrioritiesList prios A B).length := by
      rw [finalPrioritiesList_length]
      exact hs
    refine ⟨i, hi, ?_⟩
    rw [finalPrioritiesList_get prios A B i hs hi]
    rw [List.get_eq_getElem] at hL
    rw [hL]

theorem values_eq_of_nodup_keys {κ β : Type} [DecidableEq κ] {l : List (κ × β)}
    (hnd : (l.map Prod.fst).Nodup) {k : κ} {v1 v2 : β}
    (h1 : (k, v1) ∈ l) (h2 : (k, v2) ∈ l) : v1 = v2 := by
  have e1 := lookup_of_mem_nodup hnd h1
  have e2 := lookup_of_mem_nodup hnd h2
  rw [e1] at e2
  exact Option.some.inj e2

/-- C7: after a successful reconciliation the priority mapping holds exactly
the previously ranked load names not released in this pass, its ranks are
the dense integers 1..N in list order, and a load previously ranked before
another (strictly smaller rank) and also surviving keeps the smaller rank. -/
theorem priority_resequencing (b : FeedBody) (orders : List ApiOrder) (s s1 : RState)
    (hb : parseFeed b = .ok orders) (h : reconcile (.ok b) s = .ok s1) :
    (∀ L : String,
      (∃ r, (L, r) ∈ s1.priorities) ↔
        ((∃ r, (L, r) ∈ objFold s.priorities) ∧
          L ∉ loadsToReleaseLetter (ordersWithStatus orders s.queue s.statuses) s.loads ∧
          L ∉ loadsToReleasePriority (ordersWithStatus orders s.queue s.statuses) s.loads)) ∧
    (s1.priorities.map Prod.snd =
      (List.range' 1 s1.priorities.length).map (fun k => (k : Int))) ∧
    (∀ L M rL rM rL1 rM1, (L, rL) ∈ objFold s.priorities → (M, rM) ∈ objFold s.priorities →
      rL < rM → (L, rL1) ∈ s1.priorities → (M, rM1) ∈ s1.priorities → rL1 < rM1) := by
  have hp : s1.priorities = finalPrioritiesList s.priorities
      (loadsToReleaseLetter (ordersWithStatus orders s.queue s.statuses) s.loads)
      (loadsToReleasePriority (ordersWithStatus orders s.queue s.statuses) s.loads) := by
    simp only [reconcile, hb] at h
    cases h
    rfl
  set A := loadsToReleaseLetter (ordersWithStatus orders s.queue s.statuses) s.loads with hA
  set B := loadsToReleasePriority (ordersWithStatus orders s.queue s.statuses) s.loads with hB
  set kept := (objFold s.priorities).filter (fun p => !(A.contains p.1) && !(B.contains p.1))
    with hkept
  set le := (fun a b : String × Int => decide (a.2 ≤ b.2)) with hle
  have hsortnd : ((sortBy le kept).map Prod.fst).Nodup := by
    refine ((sortBy_perm le kept).map Prod.fst).nodup_iff.mpr ?_
    have : (kept.map Prod.fst).Sublist ((objFold s.priorities).map Prod.fst) :=
      (List.filter_sublist _).map Prod.fst
    exact this.nodup (objFold_keys_nodup s.priorities)
  refine ⟨?_, ?_, ?_⟩
  · intro L
    rw [hp]
    constructor
    · rintro ⟨r, hr⟩
      rcases (mem_finalPrioritiesList _ _ _ _ _).mp hr with ⟨i, hs, hL, rfl⟩
      have hmem : (sortBy le kept).get ⟨i, hs⟩ ∈ sortBy le kept := List.get_mem _ _ _
      have hmemk : (sortBy le kept).get ⟨i, hs⟩ ∈ kept := mem_sortBy.mp hmem
      have hobj := List.mem_of_mem_filter hmemk
      have hcond := List.of_mem_filter hmemk
      rw [Bool.and_eq_true, Bool.not_eq_true', Bool.not_eq_true'] at hcond
      have hnA : L ∉ A := by
        intro hmA
        have : A.contains ((sortBy le kept).get ⟨i, hs⟩).1 = true := by
          rw [hL]
          exact List.elem_eq_true_of_mem hmA
        rw [hcond.1] at this
        cases this
      have hnB : L ∉ B := by
        intro hmB
        have : B.contains ((sortBy le kept).get ⟨i, hs⟩).1 = true := by
          rw [hL]
          exact List.elem_eq_true_of_mem hmB
        rw [hcond.2] at this
        cases this
      refine ⟨⟨((sortBy le kept).get ⟨i, hs⟩).2, ?_⟩, hnA, hnB⟩
      rw [← hL]
      exact hobj
    · rintro ⟨⟨r, hr⟩, hnA, hnB⟩
      have hk : (L, r) ∈ kept := by
        rw [hkept, List.mem_filter]
        refine ⟨hr, ?_⟩
        rw [Bool.and_eq_true, Bool.not_eq_true', Bool.not_eq_true']
        constructor
        · cases hcA : A.contains L
          · rfl
          · exact absurd (by simpa using hcA) hnA
        · cases hcB : B.contains L
          · rfl
          · exact absurd (by simpa using hcB) hnB
      have hsrt : (L, r) ∈ sortBy le kept := mem_sortBy.mpr hk
      rcases List.mem_iff_getElem.mp hsrt with ⟨i, hs, hget⟩
      refine ⟨(i : Int) + 1, (mem_finalPrioritiesList _ _ _ _ _).mpr ⟨i, hs, ?_, rfl⟩⟩
      rw [List.get_eq_getElem, hget]
  · rw [hp, finalPrioritiesList_map_snd]
  · intro L M rL rM rL1 rM1 hL hM hlt hL1 hM1
    rw [hp] at hL1 hM1
    rcases (mem_finalPrioritiesList _ _ _ _ _).mp hL1 with ⟨i, hsi, hLi, rfl⟩
    rcases (mem_finalPrioritiesList _ _ _ _ _).mp hM1 with ⟨j, hsj, hMj, rfl⟩
    have hndp := objFold_keys_nodup s.priorities
    have hmi : (sortBy le kept).get ⟨i, hsi⟩ ∈ objFold s.priorities :=
      List.mem_of_mem_filter (mem_sortBy.mp (List.get_mem _ _ _))
    have hmj : (sortBy le kept).get ⟨j, hsj⟩ ∈ objFold s.priorities :=
      List.mem_of_mem_filter (mem_sortBy.mp (List.get_mem _ _ _))
    have hpairi : (sortBy le kept).get ⟨i, hsi⟩ =
        (L, ((sortBy le kept).get ⟨i, hsi⟩).2) := by
      rw [← hLi]
    have hpairj : (sortBy le kept).get ⟨j, hsj⟩ =
        (M, ((sortBy le kept).get ⟨j, hsj⟩).2) := by
      rw [← hMj]
    have hvi : ((sortBy le kept).get ⟨i, hsi⟩).2 = rL := by
      refine values_eq_of_nodup_keys hndp ?_ hL
      rw [hpairi] at hmi
      exact hmi
    have hvj : ((sortBy le kept).get ⟨j, hsj⟩).2 = rM := by
      refine values_eq_of_nodup_keys hndp ?_ hM
      rw [hpairj] at hmj
      exact hmj
    have hij : i < j := by
      rcases Nat.lt_trichotomy i j with h1 | h1 | h1
      · exact h1
      · exfalso
        subst h1
        have hLM : L = M := by
          rw [← hLi, ← hMj]
        subst hLM
        have : rL = rM := values_eq_of_nodup_keys hndp hL hM
        exact absurd this (ne_of_lt hlt)
      · exfalso
        have hsorted := @sortBy_pairwise (String × Int) le
          (fun a b => by
            rw [hle]
            rcases le_total a.2 b.2 with h2 | h2 <;> simp [h2])
          (fun a b c hab hbc => by
            rw [hle] at hab hbc ⊢
            simp only [decide_eq_true_eq] at hab hbc ⊢
            exact le_trans hab hbc) kept
        have hle2 := List.pairwise_iff_getElem.mp hsorted j i hsj hsi h1
        have hle3 : ((sortBy le kept).get ⟨j, hsj⟩).2 ≤ ((sortBy le kept).get ⟨i, hsi⟩).2 := by
          simp only [hle, decide_eq_true_eq] at hle2
          exact hle2
        rw [hvi, hvj] at hle3
        exact absurd hlt (not_lt.mpr hle3)
    have hcast : (i : Int) < (j : Int) := by exact_mod_cast hij
    omega

/-- C7 witness: load L (order 1, closed) is released, load M survives and is
re-ranked densely from rank 2 to rank 1. -/
theorem priority_resequencing_witness :
    reconcile (.ok (.arr [some [exCerr1, exPend2]])) exStC7 = .ok exStC7Out ∧
      exStC7Out.priorities.map Prod.snd =
        (List.range' 1 exStC7Out.priorities.length).map (fun k => (k : Int)) :=
  ⟨rfl, (priority_resequencing (.arr [some [exCerr1, exPend2]]) [exCerr1, exPend2]
      exStC7 exStC7Out rfl rfl).2.1⟩

/-- C2 (code bug): unplanning tag A from all outfeeds leaves outfeed 1 with
entry B still at sequence 2 — the resequencing step computes the affected
outfeeds after the tag has been deleted, finds none, and runs no renumbering
— so the sequence set is {2}, not {1}. -/
theorem unplan_breaks_contiguity :
    unplanOrder exStC2 "A" none = .ok ⟨[], [], [⟨1,"B",11,"S",2⟩], [], []⟩ ∧
      seqContiguous exStC2.queue 1 ∧ ¬ seqContiguous [⟨1,"B",11,"S",2⟩] 1 := by
  refine ⟨rfl, ?_, ?_⟩
  · rw [seqContiguous]
    decide
  · rw [seqContiguous]
    decide

/-- C5 (code bug): with tags A001 (a line of load A) and AB001 (a line of
load AB) queued, generating a tag for a new line of load A yields A001 again
— the LIKE prefix match picks AB001 as the lexicographically last tag, its
remainder B001 does not parse as a number, and the counter restarts at 1 —
duplicating a tag that already belongs to a different line. -/
theorem plan_generates_duplicate_tag :
    (planOrder exStC5 3 "P3" [1] false).map Prod.snd = .ok "A001" ∧
      (∃ e ∈ exStC5.queue, e.tag = "A001" ∧ e.order_id ≠ 3) := by
  refine ⟨rfl, ⟨1,"A001",1,"P1",1⟩, ?_, rfl, ?_⟩
  · decide
  · decide

/-- C4 counterexample: with two done lines queued at sequences 1 and 2, the
first reconciliation retires the head tag X and promotes Y to sequence 1;
the second run against the unchanged snapshot retires Y as well, so the
second run's output differs from the first run's output. -/
theorem reconcile_not_idempotent_counterexample :
    (reconcile (.ok (.arr [some [exDone1, exDone2]])) exStC4).map RState.queue =
      .ok [⟨1,"Y",2,"PY",1⟩] ∧
    ((reconcile (.ok (.arr [some [exDone1, exDone2]])) exStC4).bind
      (reconcile (.ok (.arr [some [exDone1, exDone2]])))).map RState.queue = .ok [] :=
  ⟨rfl, rfl⟩


theorem ordersInLoad_eq (orders : List ApiOrder) (queue : List QEntry)
    (statuses : List (Nat × String)) (loads : List (Nat × String)) (L : String) :
    ordersInLoad (ordersWithStatus orders queue statuses) loads L =
      (orders.filter (fun o => loadNameOf loads o.id_marketer_order == some L)).map
        (fun o => (o, getPackingStatus o ((isBeingPackedKeys queue statuses).contains
          (o.id_marketer_order, o.codigo_producto)))) := by
  rw [ordersInLoad, ordersWithStatus, List.filter_map]
  rfl

theorem releaseLetterCond_iff (orders : List ApiOrder) (queue : List QEntry)
    (statuses : List (Nat × String)) (loads : List (Nat × String)) (L : String) :
    releaseLetterCond (ordersWithStatus orders queue statuses) loads L = true ↔
      ∃ o ∈ orders, loadNameOf loads o.id_marketer_order = some L ∧
        (0 < numOr0 o.cantidad_despachada ∨ o.estado_marketer_order = "cerrada") := by
  rw [releaseLetterCond, ordersInLoad_eq, List.any_eq_true]
  constructor
  · rintro ⟨p, hp, hcond⟩
    rcases List.mem_map.mp hp with ⟨o, ho, rfl⟩
    have hname := List.of_mem_filter ho
    rw [beq_iff_eq] at hname
    refine ⟨o, List.mem_of_mem_filter ho, hname, ?_⟩
    rw [Bool.or_eq_true, beq_iff_eq, beq_iff_eq] at hcond
    rcases hcond with hsh | hce
    · exact Or.inl ((getPackingStatus_eq_shipped_iff o _).mp hsh)
    · exact Or.inr hce
  · rintro ⟨o, ho, hname, hcond⟩
    refine ⟨(o, getPackingStatus o ((isBeingPackedKeys queue statuses).contains
      (o.id_marketer_order, o.codigo_producto))), ?_, ?_⟩
    · refine List.mem_map_of_mem _ (List.mem_filter.mpr ⟨ho, ?_⟩)
      rw [beq_iff_eq]
      exact hname
    · rw [Bool.or_eq_true, beq_iff_eq, beq_iff_eq]
      rcases hcond with hsh | hce
      · exact Or.inl ((getPackingStatus_eq_shipped_iff o _).mpr hsh)
      · exact Or.inr hce

theorem fullyDoneCond_iff (orders : List ApiOrder) (queue : List QEntry)
    (statuses : List (Nat × String)) (loads : List (Nat × String)) (L : String) :
    fullyDoneCond (ordersWithStatus orders queue statuses) loads L = true ↔
      ∀ o ∈ orders, loadNameOf loads o.id_marketer_order = some L →
        (0 < numOr0 o.cantidad_despachada ∨
          (0 < numOr0 o.cantidad_solicitada ∧
            jsDiv (numOr0 o.cantidad_solicitada) (cajasOr1 o.cajas_por_pallet) ≤
              jsDiv (numOr0 o.cantidad_asignada) (cajasOr1 o.cajas_por_pallet))) := by
  rw [fullyDoneCond, ordersInLoad_eq, List.all_eq_true]
  constructor
  · intro hall o ho hname
    have hmem : (o, getPackingStatus o ((isBeingPackedKeys queue statuses).contains
        (o.id_marketer_order, o.codigo_producto))) ∈
        (orders.filter (fun o => loadNameOf loads o.id_marketer_order == some L)).map
          (fun o => (o, getPackingStatus o ((isBeingPackedKeys queue statuses).contains
            (o.id_marketer_order, o.codigo_producto)))) := by
      refine List.mem_map_of_mem _ (List.mem_filter.mpr ⟨ho, ?_⟩)
      rw [beq_iff_eq]
      exact hname
    have hcond := hall _ hmem
    rw [Bool.or_eq_true, beq_iff_eq, beq_iff_eq] at hcond
    exact (getPackingStatus_done_or_shipped_iff o _).mp hcond
  · intro hcond p hp
    rcases List.mem_map.mp hp with ⟨o, ho, rfl⟩
    have hname := List.of_mem_filter ho
    rw [beq_iff_eq] at hname
    rw [Bool.or_eq_true, beq_iff_eq, beq_iff_eq]
    exact (getPackingStatus_done_or_shipped_iff o _).mpr
      (hcond o (List.mem_of_mem_filter ho) hname)

theorem mem_groupedLoadNames (orders : List ApiOrder) (queue : List QEntry)
    (statuses : List (Nat × String)) (loads : List (Nat × String)) (L : String) :
    L ∈ groupedLoadNames (ordersWithStatus orders queue statuses) loads ↔
      ∃ o ∈ orders, loadNameOf loads o.id_marketer_order = some L := by
  rw [groupedLoadNames, mem_setList, List.mem_filterMap]
  constructor
  · rintro ⟨p, hp, he⟩
    rcases List.mem_map.mp hp with ⟨o, ho, rfl⟩
    exact ⟨o, ho, he⟩
  · rintro ⟨o, ho, he⟩
    exact ⟨(o, getPackingStatus o ((isBeingPackedKeys queue statuses).contains
      (o.id_marketer_order, o.codigo_producto))), List.mem_map_of_mem _ ho, he⟩

theorem mem_loadsToReleaseLetter (orders : List ApiOrder) (queue : List QEntry)
    (statuses : List (Nat × String)) (loads : List (Nat × String)) (L : String) :
    L ∈ loadsToReleaseLetter (ordersWithStatus orders queue statuses) loads ↔
      ∃ o ∈ orders, loadNameOf loads o.id_marketer_order = some L ∧
        (0 < numOr0 o.cantidad_despachada ∨ o.estado_marketer_order = "cerrada") := by
  rw [loadsToReleaseLetter, List.mem_filter]
  constructor
  · rintro ⟨_, hcond⟩
    exact (releaseLetterCond_iff orders queue statuses loads L).mp hcond
  · intro h
    refine ⟨?_, (releaseLetterCond_iff orders queue statuses loads L).mpr h⟩
    rcases h with ⟨o, ho, hname, _⟩
    exact (mem_groupedLoadNames orders queue statuses loads L).mpr ⟨o, ho, hname⟩

theorem mem_loadsToReleasePriority (orders : List ApiOrder) (queue : List QEntry)
    (statuses : List (Nat × String)) (loads : List (Nat × String)) (L : String) :
    L ∈ loadsToReleasePriority (ordersWithStatus orders queue statuses) loads ↔
      ((∃ o ∈ orders, loadNameOf loads o.id_marketer_order = some L) ∧
        ¬(∃ o ∈ orders, loadNameOf loads o.id_marketer_order = some L ∧
          (0 < numOr0 o.cantidad_despachada ∨ o.estado_marketer_order = "cerrada")) ∧
        (∀ o ∈ orders, loadNameOf loads o.id_marketer_order = some L →
          (0 < numOr0 o.cantidad_despachada ∨
            (0 < numOr0 o.cantidad_solicitada ∧
              jsDiv (numOr0 o.cantidad_solicitada) (cajasOr1 o.cajas_por_pallet) ≤
                jsDiv (numOr0 o.cantidad_asignada) (cajasOr1 o.cajas_por_pallet))))) := by
  rw [loadsToReleasePriority, List.mem_filter, Bool.and_eq_true, Bool.not_eq_true']
  constructor
  · rintro ⟨hg, hnl, hfd⟩
    refine ⟨(mem_groupedLoadNames orders queue statuses loads L).mp hg, ?_,
      (fullyDoneCond_iff orders queue statuses loads L).mp hfd⟩
    intro hex
    have := (releaseLetterCond_iff orders queue statuses loads L).mpr hex
    rw [hnl] at this
    cases this
  · rintro ⟨hg, hnl, hfd⟩
    refine ⟨(mem_groupedLoadNames orders queue statuses loads L).mpr hg, ?_,
      (fullyDoneCond_iff orders queue statuses loads L).mpr hfd⟩
    cases hc : releaseLetterCond (ordersWithStatus orders queue statuses) loads L
    · rfl
    · exact absurd ((releaseLetterCond_iff orders queue statuses loads L).mp hc) hnl

/-- C1 amended: for every load grouping present in the snapshot the
planning-board reconciler deletes the Load assignment entirely iff at least
one member order has shipped quantity > 0 or at least one member order's
lifecycle state is cerrada (the earlier variant instead requires every
member closed); otherwise, if every member order is classified done or
shipped, it removes only the load's priority ranking and keeps the Load
rows; the two release categories are mutually exclusive and release-letter
takes precedence. -/
theorem load_release_rule (b : FeedBody) (orders : List ApiOrder) (s s1 : RState)
    (hb : parseFeed b = .ok orders) (h : reconcile (.ok b) s = .ok s1) :
    (∀ L : String,
      ¬(L ∈ loadsToReleaseLetter (ordersWithStatus orders s.queue s.statuses) s.loads ∧
        L ∈ loadsToReleasePriority (ordersWithStatus orders s.queue s.statuses) s.loads)) ∧
    (∀ L : String,
      L ∈ loadsToReleaseLetter (ordersWithStatus orders s.queue s.statuses) s.loads ↔
        ∃ o ∈ orders, loadNameOf s.loads o.id_marketer_order = some L ∧
          (0 < numOr0 o.cantidad_despachada ∨ o.estado_marketer_order = "cerrada")) ∧
    (∀ L : String,
      L ∈ loadsToReleasePriority (ordersWithStatus orders s.queue s.statuses) s.loads ↔
        ((∃ o ∈ orders, loadNameOf s.loads o.id_marketer_order = some L) ∧
          ¬(∃ o ∈ orders, loadNameOf s.loads o.id_marketer_order = some L ∧
            (0 < numOr0 o.cantidad_despachada ∨ o.estado_marketer_order = "cerrada")) ∧
          (∀ o ∈ orders, loadNameOf s.loads o.id_marketer_order = some L →
            (0 < numOr0 o.cantidad_despachada ∨
              (0 < numOr0 o.cantidad_solicitada ∧
                jsDiv (numOr0 o.cantidad_solicitada) (cajasOr1 o.cajas_por_pallet) ≤
                  jsDiv (numOr0 o.cantidad_asignada) (cajasOr1 o.cajas_por_pallet)))))) ∧
    (s1.loads = s.loads.filter (fun r =>
      !((loadsToReleaseLetter (ordersWithStatus orders s.queue s.statuses)
          s.loads).contains r.2))) ∧
    (∀ L ∈ loadsToReleaseLetter (ordersWithStatus orders s.queue s.statuses) s.loads,
      ∀ r ∈ s1.loads, r.2 ≠ L) ∧
    (∀ L ∈ loadsToReleasePriority (ordersWithStatus orders s.queue s.statuses) s.loads,
      (∀ r ∈ s1.priorities, r.1 ≠ L) ∧ (∀ r ∈ s.loads, r.2 = L → r ∈ s1.loads)) := by
  have hload : s1.loads =
      if (loadsToReleaseLetter (ordersWithStatus orders s.queue s.statuses) s.loads).isEmpty
      then s.loads
      else s.loads.filter (fun r =>
        !((loadsToReleaseLetter (ordersWithStatus orders s.queue s.statuses)
            s.loads).contains r.2)) := by
    simp only [reconcile, hb] at h
    cases h
    rfl
  have hprio : s1.priorities = finalPrioritiesList s.priorities
      (loadsToReleaseLetter (ordersWithStatus orders s.queue s.statuses) s.loads)
      (loadsToReleasePriority (ordersWithStatus orders s.queue s.statuses) s.loads) := by
    simp only [reconcile, hb] at h
    cases h
    rfl
  have hexcl : ∀ L : String,
      ¬(L ∈ loadsToReleaseLetter (ordersWithStatus orders s.queue s.statuses) s.loads ∧
        L ∈ loadsToReleasePriority (ordersWithStatus orders s.queue s.statuses) s.loads) := by
    rintro L ⟨hA, hB⟩
    have h1 := List.of_mem_filter hA
    have h2 := List.of_mem_filter hB
    rw [Bool.and_eq_true, Bool.not_eq_true'] at h2
    rw [h2.1] at h1
    cases h1
  have hloadeq : s1.loads = s.loads.filter (fun r =>
      !((loadsToReleaseLetter (ordersWithStatus orders s.queue s.statuses)
          s.loads).contains r.2)) := by
    rw [hload]
    by_cases he : (loadsToReleaseLetter (ordersWithStatus orders s.queue s.statuses)
        s.loads).isEmpty
    · rw [if_pos he]
      rw [List.isEmpty_iff] at he
      rw [he]
      refine (List.filter_eq_self.mpr ?_).symm
      intro r _
      rfl
    · rw [if_neg he]
  refine ⟨hexcl,
    fun L => mem_loadsToReleaseLetter orders s.queue s.statuses s.loads L,
    fun L => mem_loadsToReleasePriority orders s.queue s.statuses s.loads L,
    hloadeq, ?_, ?_⟩
  · intro L hL r hr
    rw [hloadeq] at hr
    have hkeep := List.of_mem_filter hr
    rw [Bool.not_eq_true'] at hkeep
    intro he
    rw [he] at hkeep
    have hc : (loadsToReleaseLetter (ordersWithStatus orders s.queue s.statuses)
        s.loads).contains L = true := by simpa using hL
    rw [hkeep] at hc
    cases hc
  · intro L hL
    constructor
    · intro r hr he
      have hn : L ∈ (finalPrioritiesList s.priorities
          (loadsToReleaseLetter (ordersWithStatus orders s.queue s.statuses) s.loads)
          (loadsToReleasePriority (ordersWithStatus orders s.queue s.statuses)
            s.loads)).map Prod.fst := by
        rw [← hprio]
        exact he ▸ List.mem_map_of_mem Prod.fst hr
      rw [finalPrioritiesList_map_fst] at hn
      have hn2 := ((sortBy_perm _ _).map Prod.fst).mem_iff.mp hn
      rcases mem_map_fst_iff.mp hn2 with ⟨v2, hv2⟩
      have hcond := List.of_mem_filter hv2
      rw [Bool.and_eq_true, Bool.not_eq_true', Bool.not_eq_true'] at hcond
      have hc : (loadsToReleasePriority (ordersWithStatus orders s.queue s.statuses)
          s.loads).contains L = true := by simpa using hL
      rw [hcond.2] at hc
      cases hc
    · intro r hr he
      rw [hloadeq, List.mem_filter]
      refine ⟨hr, ?_⟩
      rw [Bool.not_eq_true']
      cases hc : (loadsToReleaseLetter (ordersWithStatus orders s.queue s.statuses)
          s.loads).contains r.2
      · rfl
      · exfalso
        have : r.2 ∈ loadsToReleaseLetter (ordersWithStatus orders s.queue s.statuses)
            s.loads := by simpa using hc
        rw [he] at this
        exact hexcl L ⟨this, hL⟩

/-- C1 counterexample to the claim as stated: load L holds order 1 (closed,
nothing shipped) and order 2 (open, pending); no member has shipped
quantity > 0 and not every member is closed, yet reconciliation deletes the
load entirely. -/
theorem load_release_claim_counterexample :
    (reconcile (.ok (.arr [some [exCerr1, exPend2]])) exStC1).map RState.loads = .ok [] ∧
      (∀ o ∈ [exCerr1, exPend2], ¬ 0 < numOr0 o.cantidad_despachada) ∧
      ¬(∀ o ∈ [exCerr1, exPend2], o.estado_marketer_order = "cerrada") := by
  refine ⟨rfl, ?_, ?_⟩
  · decide
  · decide

/-- C1 witness: the closed order 1 makes load L fully released on the
concrete state, matching the amended some-member-closed trigger. -/
theorem load_release_witness :
    reconcile (.ok (.arr [some [exCerr1, exPend2]])) exStC1 = .ok exSt0 ∧
      ("L" ∈ loadsToReleaseLetter
          (ordersWithStatus [exCerr1, exPend2] exStC1.queue exStC1.statuses) exStC1.loads ↔
        ∃ o ∈ [exCerr1, exPend2],
          loadNameOf exStC1.loads o.id_marketer_order = some "L" ∧
            (0 < numOr0 o.cantidad_despachada ∨ o.estado_marketer_order = "cerrada")) :=
  ⟨rfl, (load_release_rule (.arr [some [exCerr1, exPend2]]) [exCerr1, exPend2]
      exStC1 exSt0 rfl rfl).2.1 "L"⟩

theorem linePred_shift (oid : Nat) (sid : String) (f : Nat) :
    ((fun e : QEntry => e.order_id == oid && e.standard_id == sid) ∘
      (fun e : QEntry =>
        if e.outfeed_id == f then { e with sequence := e.sequence + 1 } else e)) =
    (fun e : QEntry => e.order_id == oid && e.standard_id == sid) := by
  funext e
  by_cases hf : e.outfeed_id == f <;> simp [Function.comp, hf]

theorem conflictPred_shift (g : Nat) (oid : Nat) (sid : String) (f : Nat) :
    ((fun e : QEntry =>
        e.outfeed_id == g && e.order_id == oid && e.standard_id == sid) ∘
      (fun e : QEntry =>
        if e.outfeed_id == f then { e with sequence := e.sequence + 1 } else e)) =
    (fun e : QEntry =>
      e.outfeed_id == g && e.order_id == oid && e.standard_id == sid) := by
  funext e
  by_cases hf : e.outfeed_id == f <;> simp [Function.comp, hf]

theorem lineConflict_shiftMap (q : List QEntry) (f g : Nat) (oid : Nat) (sid : String) :
    lineConflict (q.map (fun e =>
      if e.outfeed_id == f then { e with sequence := e.sequence + 1 } else e)) g oid sid =
      lineConflict q g oid sid := by
  rw [lineConflict, lineConflict, List.any_map, conflictPred_shift]

theorem countLine_shiftMap (q : List QEntry) (f g : Nat) (oid : Nat) (sid : String) :
    countLine (q.map (fun e =>
      if e.outfeed_id == f then { e with sequence := e.sequence + 1 } else e)) g oid sid =
      countLine q g oid sid := by
  rw [countLine, countLine, List.filter_map, conflictPred_shift, List.length_map]

theorem lineConflict_planInsertOne_self (oid : Nat) (sid : String) (t : String) (hp : Bool)
    (q : List QEntry) (f : Nat) :
    lineConflict (planInsertOne oid sid t hp q f) f oid sid = true := by
  rw [planInsertOne]
  cases hp with
  | true =>
    simp only [if_true]
    by_cases hc : lineConflict (q.map (fun e =>
        if e.outfeed_id == f then { e with sequence := e.sequence + 1 } else e)) f oid sid = true
    · rw [if_pos hc]
      exact hc
    · rw [if_neg hc, lineConflict, List.any_append]
      have : ((⟨f, t, oid, sid, 1⟩ : QEntry) ::
          ([] : List QEntry)).any (fun e =>
            e.outfeed_id == f && e.order_id == oid && e.standard_id == sid) = true := by
        simp
      rw [this, Bool.or_true]
  | false =>
    simp only [Bool.false_eq_true, if_false]
    by_cases hc : lineConflict q f oid sid = true
    · rw [if_pos hc]
      exact hc
    · rw [if_neg hc, lineConflict, List.any_append]
      have : ((⟨f, t, oid, sid,
          ((((q.filter (fun e => e.outfeed_id == f)).map (fun e => e.sequence)).max?).getD 0)
            + 1⟩ : QEntry) :: ([] : List QEntry)).any (fun e =>
            e.outfeed_id == f && e.order_id == oid && e.standard_id == sid) = true := by
        simp
      rw [this, Bool.or_true]

theorem lineConflict_planInsertOne_mono (oid : Nat) (sid : String) (t : String) (hp : Bool)
    (q : List QEntry) (f g : Nat) (h : lineConflict q g oid sid = true) :
    lineConflict (planInsertOne oid sid t hp q f) g oid sid = true := by
  rw [planInsertOne]
  cases hp with
  | true =>
    simp only [if_true]
    have hs : lineConflict (q.map (fun e =>
        if e.outfeed_id == f then { e with sequence := e.sequence + 1 } else e)) g oid sid =
        true := by
      rw [lineConflict_shiftMap]
      exact h
    by_cases hc : lineConflict (q.map (fun e =>
        if e.outfeed_id == f then { e with sequence := e.sequence + 1 } else e)) f oid sid = true
    · rw [if_pos hc]
      exact hs
    · rw [if_neg hc, lineConflict, List.any_append]
      rw [lineConflict] at hs
      rw [hs]
      rfl
  | false =>
    simp only [Bool.false_eq_true, if_false]
    by_cases hc : lineConflict q f oid sid = true
    · rw [if_pos hc]
      exact h
    · rw [if_neg hc, lineConflict, List.any_append]
      rw [lineConflict] at h
      rw [h]
      rfl

theorem lineConflict_foldl_mono (oid : Nat) (sid : String) (t : String) (hp : Bool)
    (ofs : List Nat) :
    ∀ (q : List QEntry) (g : Nat), lineConflict q g oid sid = true →
      lineConflict (ofs.foldl (planInsertOne oid sid t hp) q) g oid sid = true := by
  induction ofs with
  | nil => intro q g h; exact h
  | cons x rest ih =>
    intro q g h
    rw [List.foldl_cons]
    exact ih _ g (lineConflict_planInsertOne_mono oid sid t hp q x g h)

theorem lineConflict_foldl (oid : Nat) (sid : String) (t : String) (hp : Bool)
    (ofs : List Nat) :
    ∀ (q : List QEntry), ∀ f ∈ ofs,
      lineConflict (ofs.foldl (planInsertOne oid sid t hp) q) f oid sid = true := by
  induction ofs with
  | nil =>
    intro q f hf
    cases hf
  | cons g rest ih =>
    intro q f hf
    rw [List.foldl_cons]
    rcases List.mem_cons.mp hf with rfl | hf2
    · exact lineConflict_foldl_mono oid sid t hp rest _ f
        (lineConflict_planInsertOne_self oid sid t hp q f)
    · exact ih _ f hf2

theorem countLine_planInsertOne (oid : Nat) (sid : String) (t : String) (hp : Bool)
    (q : List QEntry) (f g : Nat) (hc : lineConflict q f oid sid = true) :
    countLine (planInsertOne oid sid t hp q f) g oid sid = countLine q g oid sid := by
  rw [planInsertOne]
  cases hp with
  | true =>
    simp only [if_true]
    have hcs : lineConflict (q.map (fun e =>
        if e.outfeed_id == f then { e with sequence := e.sequence + 1 } else e)) f oid sid =
        true := by
      rw [lineConflict_shiftMap]
      exact hc
    rw [if_pos hcs, countLine_shiftMap]
  | false =>
    simp only [Bool.false_eq_true, if_false]
    rw [if_pos hc]

theorem countLine_foldl (oid : Nat) (sid : String) (t : String) (hp : Bool)
    (ofs : List Nat) :
    ∀ (q : List QEntry), (∀ f ∈ ofs, lineConflict q f oid sid = true) →
      ∀ g, countLine (ofs.foldl (planInsertOne oid sid t hp) q) g oid sid =
        countLine q g oid sid := by
  induction ofs with
  | nil =>
    intro q _ g
    rfl
  | cons x rest ih =>
    intro q hall g
    rw [List.foldl_cons]
    have hx := hall x (List.mem_cons_self x rest)
    have hrest : ∀ f ∈ rest, lineConflict (planInsertOne oid sid t hp q x) f oid sid = true :=
      fun f hf => lineConflict_planInsertOne_mono oid sid t hp q x f
        (hall f (List.mem_cons_of_mem x hf))
    rw [ih _ hrest g, countLine_planInsertOne oid sid t hp q x g hx]

theorem find?_ne_none_of_conflict (q : List QEntry) (f : Nat) (oid : Nat) (sid : String)
    (h : lineConflict q f oid sid = true) :
    q.find? (fun e => e.order_id == oid && e.standard_id == sid) ≠ none := by
  rcases List.any_eq_true.mp h with ⟨e, he, hpe⟩
  rw [Bool.and_eq_true, Bool.and_eq_true] at hpe
  intro hnone
  rw [List.find?_eq_none] at hnone
  refine hnone e he ?_
  rw [Bool.and_eq_true]
  exact ⟨hpe.1.2, hpe.2⟩

theorem shiftEntry_tag (f : Nat) (e : QEntry) :
    (if e.outfeed_id == f then { e with sequence := e.sequence + 1 } else e).tag = e.tag := by
  by_cases hf : e.outfeed_id == f <;> simp [hf]

theorem find?_line_planInsertOne_some (oid : Nat) (sid : String) (t : String) (hp : Bool)
    (q : List QEntry) (f : Nat) {e : QEntry}
    (h : q.find? (fun e => e.order_id == oid && e.standard_id == sid) = some e) :
    ∃ e2, (planInsertOne oid sid t hp q f).find?
        (fun e => e.order_id == oid && e.standard_id == sid) = some e2 ∧
      e2.tag = e.tag := by
  rw [planInsertOne]
  cases hp with
  | true =>
    simp only [if_true]
    have hmap : (q.map (fun e =>
        if e.outfeed_id == f then { e with sequence := e.sequence + 1 } else e)).find?
        (fun e => e.order_id == oid && e.standard_id == sid) =
        some (if e.outfeed_id == f then { e with sequence := e.sequence + 1 } else e) := by
      rw [List.find?_map, linePred_shift, h]
      rfl
    by_cases hc : lineConflict (q.map (fun e =>
        if e.outfeed_id == f then { e with sequence := e.sequence + 1 } else e)) f oid sid = true
    · rw [if_pos hc]
      exact ⟨_, hmap, shiftEntry_tag f e⟩
    · rw [if_neg hc]
      refine ⟨_, ?_, shiftEntry_tag f e⟩
      rw [List.find?_append, hmap]
      rfl
  | false =>
    simp only [Bool.false_eq_true, if_false]
    by_cases hc : lineConflict q f oid sid = true
    · rw [if_pos hc]
      exact ⟨e, h, rfl⟩
    · rw [if_neg hc]
      refine ⟨e, ?_, rfl⟩
      rw [List.find?_append, h]
      rfl

theorem find?_line_planInsertOne_none (oid : Nat) (sid : String) (t : String) (hp : Bool)
    (q : List QEntry) (f : Nat)
    (h : q.find? (fun e => e.order_id == oid && e.standard_id == sid) = none) :
    ∃ e2, (planInsertOne oid sid t hp q f).find?
        (fun e => e.order_id == oid && e.standard_id == sid) = some e2 ∧
      e2.tag = t := by
  rw [planInsertOne]
  cases hp with
  | true =>
    simp only [if_true]
    have hmap : (q.map (fun e =>
        if e.outfeed_id == f then { e with sequence := e.sequence + 1 } else e)).find?
        (fun e => e.order_id == oid && e.standard_id == sid) = none := by
      rw [List.find?_map, linePred_shift, h]
      rfl
    have hc : lineConflict (q.map (fun e =>
        if e.outfeed_id == f then { e with sequence := e.sequence + 1 } else e)) f oid sid ≠
        true := by
      intro hc
      exact find?_ne_none_of_conflict _ f oid sid hc hmap
    rw [if_neg hc]
    refine ⟨⟨f, t, oid, sid, 1⟩, ?_, rfl⟩
    rw [List.find?_append, hmap]
    simp [List.find?_cons]
  | false =>
    simp only [Bool.false_eq_true, if_false]
    have hc : lineConflict q f oid sid ≠ true := by
      intro hc
      exact find?_ne_none_of_conflict _ f oid sid hc h
    rw [if_neg hc]
    refine ⟨⟨f, t, oid, sid,
      (((q.filter (fun e => e.outfeed_id == f)).map (fun e => e.sequence)).max?).getD 0 + 1⟩,
      ?_, rfl⟩
    rw [List.find?_append, h]
    simp [List.find?_cons]

theorem find?_line_foldl_some (oid : Nat) (sid : String) (t : String) (hp : Bool)
    (ofs : List Nat) :
    ∀ (q : List QEntry) (e : QEntry),
      q.find? (fun e => e.order_id == oid && e.standard_id == sid) = some e →
      ∃ e2, (ofs.foldl (planInsertOne oid sid t hp) q).find?
          (fun e => e.order_id == oid && e.standard_id == sid) = some e2 ∧
        e2.tag = e.tag := by
  induction ofs with
  | nil =>
    intro q e h
    exact ⟨e, h, rfl⟩
  | cons x rest ih =>
    intro q e h
    rw [List.foldl_cons]
    rcases find?_line_planInsertOne_some oid sid t hp q x h with ⟨e1, h1, ht1⟩
    rcases ih _ e1 h1 with ⟨e2, h2, ht2⟩
    exact ⟨e2, h2, ht2.trans ht1⟩

theorem resolvedTag_after_plan (q : List QEntry) (ln ln2 : String) (oid : Nat) (sid : String)
    (hp : Bool) (ofs : List Nat) (hne : ofs ≠ []) :
    resolvedTag (ofs.foldl (planInsertOne oid sid (resolvedTag q ln oid sid) hp) q)
      ln2 oid sid = resolvedTag q ln oid sid := by
  cases ofs with
  | nil => exact absurd rfl hne
  | cons f1 rest =>
    rw [List.foldl_cons]
    generalize hgen : resolvedTag q ln oid sid = t0
    cases hf : q.find? (fun e => e.order_id == oid && e.standard_id == sid) with
    | some e =>
      have he : e.tag = t0 := by
        rw [← hgen]
        simp only [resolvedTag, hf]
      rcases find?_line_planInsertOne_some oid sid t0 hp q f1 hf with ⟨e1, h1, ht1⟩
      rcases find?_line_foldl_some oid sid t0 hp rest _ e1 h1 with ⟨e2, h2, ht2⟩
      simp only [resolvedTag, h2]
      rw [ht2, ht1, he]
    | none =>
      rcases find?_line_planInsertOne_none oid sid t0 hp q f1 hf with ⟨e1, h1, ht1⟩
      rcases find?_line_foldl_some oid sid t0 hp rest _ e1 h1 with ⟨e2, h2, ht2⟩
      simp only [resolvedTag, h2]
      rw [ht2, ht1]

/-- C6: planOrder is an idempotent re-plan — a second call for the same line
with the same targets returns the same tag, and for every target outfeed the
conflicting insert is skipped, so the call adds no further queue entry for
that line in that outfeed. -/
theorem planOrder_idempotent (s : RState) (oid : Nat) (sid : String) (ofs : List Nat)
    (hp : Bool) (s1 : RState) (t1 : String)
    (h : planOrder s oid sid ofs hp = .ok (s1, t1)) :
    ∃ s2, planOrder s1 oid sid ofs hp = .ok (s2, t1) ∧
      ∀ f ∈ ofs, countLine s2.queue f oid sid = countLine s1.queue f oid sid := by
  by_cases hval : (oid == 0 || sid == "" || ofs.isEmpty) = true
  · rw [planOrder, if_pos hval] at h
    simp at h
  · cases hlp : s.loads.find? (fun p => p.1 == oid) with
    | none =>
      rw [planOrder, if_neg hval] at h
      simp only [hlp] at h
      simp at h
    | some lp =>
      have hmain : planOrder s oid sid ofs hp = .ok
          ({ s with queue := ofs.foldl (planInsertOne oid sid
              (resolvedTag s.queue lp.2 oid sid) hp) s.queue },
            resolvedTag s.queue lp.2 oid sid) := by
        rw [planOrder, if_neg hval, hlp]
      rw [hmain] at h
      cases h
      have hne : ofs ≠ [] := by
        intro he
        apply hval
        subst he
        simp
      have htag : resolvedTag (ofs.foldl (planInsertOne oid sid
          (resolvedTag s.queue lp.2 oid sid) hp) s.queue) lp.2 oid sid =
          resolvedTag s.queue lp.2 oid sid :=
        resolvedTag_after_plan s.queue lp.2 lp.2 oid sid hp ofs hne
      have hconf : ∀ f ∈ ofs, lineConflict (ofs.foldl (planInsertOne oid sid
          (resolvedTag s.queue lp.2 oid sid) hp) s.queue) f oid sid = true :=
        lineConflict_foldl oid sid (resolvedTag s.queue lp.2 oid sid) hp ofs s.queue
      refine ⟨{ s with queue := ofs.foldl (planInsertOne oid sid
          (resolvedTag s.queue lp.2 oid sid) hp) (ofs.foldl (planInsertOne oid sid
            (resolvedTag s.queue lp.2 oid sid) hp) s.queue) }, ?_, ?_⟩
      · rw [planOrder, if_neg hval]
        simp only [hlp, htag]
      · intro f hf
        exact countLine_foldl oid sid (resolvedTag s.queue lp.2 oid sid) hp ofs _ hconf f

/-- C6 witness: planning line (7, S) on outfeed 1 creates tag C001; the
re-plan returns C001 again and adds no entry. -/
theorem planOrder_idempotent_witness :
    planOrder exStC6 7 "S" [1] false = .ok (exStC6Out, "C001") ∧
      ∃ s2, planOrder exStC6Out 7 "S" [1] false = .ok (s2, "C001") ∧
        ∀ f ∈ [1], countLine s2.queue f 7 "S" = countLine exStC6Out.queue f 7 "S" :=
  ⟨rfl, planOrder_idempotent exStC6 7 "S" [1] false exStC6Out "C001" rfl⟩

theorem reconcile_ok (b : FeedBody) (orders : List ApiOrder) (s : RState)
    (hb : parseFeed b = .ok orders) :
    reconcile (.ok b) s = .ok (reconcileStep orders s) := by
  simp only [reconcile, hb, reconcileStep, releasedLoads]

theorem loadNameOf_filter_not (loads : List (Nat × String)) (A : List String)
    (hnd : (loads.map Prod.fst).Nodup) (oid : Nat) (L : String) :
    loadNameOf (if A.isEmpty then loads
        else loads.filter (fun p => !(A.contains p.2))) oid = some L ↔
      loadNameOf loads oid = some L ∧ A.contains L = false := by
  by_cases hA : A.isEmpty = true
  · rw [if_pos hA]
    have hAe : A = [] := by
      cases A with
      | nil => rfl
      | cons a t => simp [List.isEmpty] at hA
    subst hAe
    constructor
    · intro h
      exact ⟨h, rfl⟩
    · rintro ⟨h, _⟩
      exact h
  · rw [if_neg hA]
    rw [loadNameOf, loadNameOf, objFold_eq_self hnd,
      objFold_eq_self (((List.filter_sublist loads).map Prod.fst).nodup hnd),
      lookup_filter_nodup (fun p => !(A.contains p.2)) hnd oid]
    cases hl : loads.lookup oid with
    | none => simp
    | some v =>
      simp only [Option.some_bind]
      by_cases hv : A.contains v = true
      · rw [if_neg (by simp [hv]; exact List.mem_of_elem_eq_true hv)]
        constructor
        · intro he
          exact absurd he (by simp)
        · rintro ⟨he, hc⟩
          have hvl : v = L := Option.some.inj he
          rw [hvl, hc] at hv
          cases hv
      · have hv2 : A.contains v = false := by
          revert hv
          cases A.contains v <;> simp
        rw [if_pos (by
          simp [hv2]
          intro hm
          cases (List.elem_eq_true_of_mem hm).symm.trans hv2)]
        constructor
        · intro he
          refine ⟨he, ?_⟩
          rw [← Option.some.inj he]
          exact hv2
        · rintro ⟨he, _⟩
          exact he

theorem loadNameOf_released (orders : List ApiOrder) (s : RState)
    (hnd : (s.loads.map Prod.fst).Nodup) (oid : Nat) (L : String) :
    loadNameOf (releasedLoads orders s) oid = some L ↔
      loadNameOf s.loads oid = some L ∧
        (loadsToReleaseLetter (ordersWithStatus orders s.queue s.statuses)
          s.loads).contains L = false := by
  rw [releasedLoads]
  exact loadNameOf_filter_not s.loads _ hnd oid L

theorem releaseLetter_again_nil (orders : List ApiOrder) (s : RState)
    (hnd : (s.loads.map Prod.fst).Nodup) (queue2 : List QEntry) :
    loadsToReleaseLetter (ordersWithStatus orders queue2 s.statuses)
      (releasedLoads orders s) = [] := by
  rw [List.eq_nil_iff_forall_not_mem]
  intro L hL
  rw [mem_loadsToReleaseLetter] at hL
  obtain ⟨o, ho, hname, hcond⟩ := hL
  rw [loadNameOf_released orders s hnd] at hname
  have hmem : L ∈ loadsToReleaseLetter (ordersWithStatus orders s.queue s.statuses) s.loads :=
    (mem_loadsToReleaseLetter orders s.queue s.statuses s.loads L).mpr ⟨o, ho, hname.1, hcond⟩
  have hct : (loadsToReleaseLetter (ordersWithStatus orders s.queue s.statuses)
      s.loads).contains L = true := List.elem_eq_true_of_mem hmem
  rw [hname.2] at hct
  cases hct

theorem prioSet_again_not_mem (orders : List ApiOrder) (s : RState)
    (hnd : (s.loads.map Prod.fst).Nodup) (queue2 : List QEntry) (L : String)
    (hnl : (loadsToReleaseLetter (ordersWithStatus orders s.queue s.statuses)
      s.loads).contains L = false)
    (hnp : (loadsToReleasePriority (ordersWithStatus orders s.queue s.statuses)
      s.loads).contains L = false) :
    L ∉ loadsToReleasePriority (ordersWithStatus orders queue2 s.statuses)
      (releasedLoads orders s) := by
  intro hL
  rw [mem_loadsToReleasePriority] at hL
  obtain ⟨⟨o0, ho0, hname0⟩, hnolet2, hall2⟩ := hL
  rw [loadNameOf_released orders s hnd] at hname0
  have hmem : L ∈ loadsToReleasePriority (ordersWithStatus orders s.queue s.statuses) s.loads := by
    rw [mem_loadsToReleasePriority]
    refine ⟨⟨o0, ho0, hname0.1⟩, ?_, ?_⟩
    · intro hex
      have := (mem_loadsToReleaseLetter orders s.queue s.statuses s.loads L).mpr hex
      have hct : (loadsToReleaseLetter (ordersWithStatus orders s.queue s.statuses)
          s.loads).contains L = true := List.elem_eq_true_of_mem this
      rw [hnl] at hct
      cases hct
    · intro o ho hname
      apply hall2 o ho
      rw [loadNameOf_released orders s hnd]
      exact ⟨hname, hname0.2⟩
  have hct : (loadsToReleasePriority (ordersWithStatus orders s.queue s.statuses)
      s.loads).contains L = true := List.elem_eq_true_of_mem hmem
  rw [hnp] at hct
  cases hct

theorem finalPrioritiesList_snd (prios : List (String × Int)) (A B : List String)
    (i : Nat) (hi : i < (finalPrioritiesList prios A B).length) :
    ((finalPrioritiesList prios A B)[i]).2 = (i : Int) + 1 := by
  have hs : i < (sortBy (fun a b : String × Int => decide (a.2 ≤ b.2))
      ((objFold prios).filter (fun p =>
        !(A.contains p.1) && !(B.contains p.1)))).length := by
    have := finalPrioritiesList_length prios A B
    omega
  rw [finalPrioritiesList_get prios A B i hs hi]

theorem finalPrioritiesList_rank_pairwise (prios : List (String × Int)) (A B : List String) :
    (finalPrioritiesList prios A B).Pairwise
      (fun a b : String × Int => decide (a.2 ≤ b.2) = true) := by
  rw [List.pairwise_iff_getElem]
  intro i j hi hj hij
  rw [finalPrioritiesList_snd prios A B i hi, finalPrioritiesList_snd prios A B j hj]
  simp only [decide_eq_true_eq]
  omega

theorem finalPrioritiesList_keys_nodup (prios : List (String × Int)) (A B : List String) :
    ((finalPrioritiesList prios A B).map Prod.fst).Nodup := by
  rw [finalPrioritiesList_map_fst]
  refine ((sortBy_perm _ _).map Prod.fst).nodup_iff.mpr ?_
  exact ((List.filter_sublist _).map Prod.fst).nodup (objFold_keys_nodup prios)

theorem finalPrioritiesList_key_not_released {prios : List (String × Int)}
    {A B : List String} {p : String × Int} (hp : p ∈ finalPrioritiesList prios A B) :
    A.contains p.1 = false ∧ B.contains p.1 = false := by
  have h1 : p.1 ∈ (finalPrioritiesList prios A B).map Prod.fst := List.mem_map_of_mem _ hp
  rw [finalPrioritiesList_map_fst] at h1
  rcases List.mem_map.mp h1 with ⟨q, hq, he⟩
  have hcond := List.of_mem_filter (mem_sortBy.mp hq)
  rw [he] at hcond
  rw [Bool.and_eq_true, Bool.not_eq_true', Bool.not_eq_true'] at hcond
  exact hcond

theorem enum_renumber_id (l : List (String × Int))
    (h : ∀ i (hi : i < l.length), (l[i]).2 = (i : Int) + 1) :
    l.enum.map (fun ip => (ip.2.1, (ip.1 : Int) + 1)) = l := by
  apply List.ext_getElem
  · rw [List.length_map, List.enum_length]
  · intro i h1 h2
    simp only [List.getElem_map, List.getElem_enum]
    rw [← h i h2]

theorem finalPriorities_fixpoint (prios1 : List (String × Int)) (B2 : List String)
    (hB : ∀ p ∈ prios1, B2.contains p.1 = false)
    (hpw : prios1.Pairwise (fun a b : String × Int => decide (a.2 ≤ b.2) = true))
    (hnd : (prios1.map Prod.fst).Nodup)
    (hsnd : ∀ i (hi : i < prios1.length), (prios1[i]).2 = (i : Int) + 1) :
    finalPrioritiesList prios1 [] B2 = prios1 := by
  rw [finalPrioritiesList, objFold_eq_self hnd]
  have hfil : prios1.filter (fun p =>
      !(([] : List String).contains p.1) && !(B2.contains p.1)) = prios1 := by
    apply List.filter_eq_self.mpr
    intro p hp
    simp [hB p hp]
    intro hm
    cases (List.elem_eq_true_of_mem hm).symm.trans (hB p hp)
  rw [hfil, sortBy_of_pairwise hpw]
  exact enum_renumber_id prios1 hsnd

/-- C4 corrected: when the loads table keys are duplicate-free, a second
reconciliation against the same unchanged snapshot reproduces the first
run's loads and priorities exactly; the queue, however, is not a fixpoint
in general, since a second run may retire the heads the first run promoted. -/
theorem reconcile_idempotent_on_loads_and_priorities
    (fetched : Except String FeedBody) (s s1 : RState)
    (hnd : (s.loads.map Prod.fst).Nodup)
    (h : reconcile fetched s = .ok s1) :
    ∃ s2, reconcile fetched s1 = .ok s2 ∧
      s2.loads = s1.loads ∧ s2.priorities = s1.priorities := by
  cases fetched with
  | error e => simp [reconcile] at h
  | ok b =>
    cases hb : parseFeed b with
    | error msg => simp [reconcile, hb] at h
    | ok orders =>
      have hrec := reconcile_ok b orders s hb
      rw [h] at hrec
      injection hrec with hs1
      refine ⟨reconcileStep orders s1, reconcile_ok b orders s1 hb, ?_, ?_⟩
      · show releasedLoads orders s1 = s1.loads
        rw [hs1]
        rw [releasedLoads]
        simp only [reconcileStep]
        rw [releaseLetter_again_nil orders s hnd]
        simp
      · show finalPrioritiesList s1.priorities
            (loadsToReleaseLetter (ordersWithStatus orders s1.queue s1.statuses) s1.loads)
            (loadsToReleasePriority (ordersWithStatus orders s1.queue s1.statuses) s1.loads)
          = s1.priorities
        rw [hs1]
        simp only [reconcileStep]
        rw [releaseLetter_again_nil orders s hnd]
        refine finalPriorities_fixpoint _ _ ?_
          (finalPrioritiesList_rank_pairwise s.priorities _ _)
          (finalPrioritiesList_keys_nodup s.priorities _ _)
          (finalPrioritiesList_snd s.priorities _ _)
        intro p hp
        have hk := finalPrioritiesList_key_not_released hp
        have hnm := prioSet_again_not_mem orders s hnd
          (advanceQueues (ordersWithStatus orders s.queue s.statuses) s.queue) p.1 hk.1 hk.2
        cases hc : (loadsToReleasePriority (ordersWithStatus orders
            (advanceQueues (ordersWithStatus orders s.queue s.statuses) s.queue) s.statuses)
            (releasedLoads orders s)).contains p.1 with
        | false => rfl
        | true => exact absurd (List.mem_of_elem_eq_true hc) hnm

/-- C4 witness: a state with one promoted done line; the second pass keeps
loads and priorities (both empty) unchanged. -/
theorem reconcile_idempotent_witness :
    ∃ s2, reconcile (.ok (.arr [some [exDone1, exDone2]]))
        (⟨[], [], [⟨1,"Y",2,"PY",1⟩], [(1,"RUNNING")], []⟩ : RState) = .ok s2 ∧
      s2.loads = (⟨[], [], [⟨1,"Y",2,"PY",1⟩], [(1,"RUNNING")], []⟩ : RState).loads ∧
      s2.priorities = (⟨[], [], [⟨1,"Y",2,"PY",1⟩], [(1,"RUNNING")], []⟩ : RState).priorities :=
  reconcile_idempotent_on_loads_and_priorities
    (.ok (.arr [some [exDone1, exDone2]])) exStC4 _ (by decide) rfl

end DPM
